import Mathlib

/-!
Verification of the lattigo homomorphic-evaluator core (`bfv/evaluator.go`)
and of the CKKS encoder (`ckks` encoder file) against its specification.

The polynomial-ring layer (package `ring`: modular Add/Sub, Montgomery
multiplication, NTT, sampling) is external to the evaluator sources; its
operations are modelled from the spec as operations on ring elements, with a
polynomial in RNS/NTT form represented slot-wise: every ring operation used by
the tensoring and key-switching code acts componentwise on the
(modulus, coefficient) table, so a single component over a commutative ring
`R` (instantiated with `ZMod q`) represents the whole table.  An element
(ciphertext/plaintext carrier) is the list of its polynomials; its degree is
the list length minus one.
-/

/-- Errors surfaced by the BFV evaluator, modelling the distinct
`errors.New` values in `bfv/evaluator.go`. -/
inductive BfvError where
  | nilOperand
  | receiverDegreeTooSmall
  | ctDegreeNotOneSwitchKeys
  | receiverDegreeNotOneSwitchKeys
  | receiverDegreeMismatchRotate
  | degreeOutOfRangeRotate
  | rotationKeysNotGenerated
  | rowRotationKeyNotGenerated
  | ctDegreeNotOneInnerSum
  | receiverDegreeNotOneInnerSum
  deriving DecidableEq, Repr

/-- Degree of a BFV element: its number of polynomials minus one
(`bfvElement.Degree()` returns `uint64(len(el.value) - 1)`). -/
def bfvDegree {R : Type} (c : List R) : Nat := c.length - 1

/-!
## SwitchKeys / SwitchKeysNew guards (claim C7)

`Evaluator.SwitchKeys` (in-place) checks `cIn.Degree() != 1` and
`cOut.Degree() != 1` before touching any state; `Evaluator.SwitchKeysNew`
only checks `cIn.Degree() > 1` and then reads `cIn.value[1]`.
The key-switching arithmetic itself is abstracted as `body`.
-/

/-- Transcription of `Evaluator.SwitchKeys` (the in-place form): both degree
guards run before any mutation; on error the receiver is returned unchanged,
on success the abstracted body produces the new receiver contents. -/
def SwitchKeys {R : Type} (body : List R → List R → List R)
    (cIn cOut : List R) : Option BfvError × List R :=
  if bfvDegree cIn ≠ 1 then (some .ctDegreeNotOneSwitchKeys, cOut)
  else if bfvDegree cOut ≠ 1 then (some .receiverDegreeNotOneSwitchKeys, cOut)
  else (none, body cIn cOut)

/-- Transcription of `Evaluator.SwitchKeysNew`: the guard is
`cIn.Degree() > 1` (not `!= 1`), after which a fresh receiver is produced by
the abstracted body from `cIn`. -/
def SwitchKeysNew {R : Type} (body : List R → List R)
    (cIn : List R) : Option BfvError × Option (List R) :=
  if 1 < bfvDegree cIn then (some .ctDegreeNotOneSwitchKeys, none)
  else (none, some (body cIn))

/-- C7 counterexample: a degree-0 ciphertext is accepted by `SwitchKeysNew`
(no error is returned), contradicting the claim that both forms return an
error for every input degree other than 1, including degree 0. -/
theorem C7_counterexample :
    bfvDegree ([0] : List (ZMod 5)) ≠ 1 ∧
      (SwitchKeysNew (fun c => c) ([0] : List (ZMod 5))).1 = none := by
  constructor
  · decide
  · rfl

/-- C7 (amended): the in-place `SwitchKeys` errors exactly when the input or
the receiver degree differs from 1 and on error returns the receiver
unchanged; `SwitchKeysNew` errors exactly when the input degree exceeds 1, so
a degree-0 input passes its guard, after which the body's read of
`cIn.value[1]` is out of range (`cIn[1]? = none`). -/
theorem C7_switchKeys_guards {R : Type} (body2 : List R → List R → List R)
    (body1 : List R → List R) (cIn cOut : List R) :
    ((SwitchKeys body2 cIn cOut).1 ≠ none ↔
        (bfvDegree cIn ≠ 1 ∨ bfvDegree cOut ≠ 1)) ∧
    ((SwitchKeys body2 cIn cOut).1 ≠ none →
        (SwitchKeys body2 cIn cOut).2 = cOut) ∧
    ((SwitchKeysNew body1 cIn).1 ≠ none ↔ 1 < bfvDegree cIn) ∧
    (cIn.length = 1 →
        (SwitchKeysNew body1 cIn).1 = none ∧ cIn[1]? = none) := by
  refine ⟨?_, ?_, ?_, ?_⟩
  · unfold SwitchKeys
    by_cases h0 : bfvDegree cIn ≠ 1 <;> by_cases h1 : bfvDegree cOut ≠ 1 <;>
      simp [h0, h1]
  · unfold SwitchKeys
    by_cases h0 : bfvDegree cIn ≠ 1 <;> by_cases h1 : bfvDegree cOut ≠ 1 <;>
      simp [h0, h1]
  · unfold SwitchKeysNew
    by_cases h0 : 1 < bfvDegree cIn <;> simp [h0]
  · intro hlen
    have hdeg : bfvDegree cIn = 0 := by simp [bfvDegree, hlen]
    constructor
    · simp [SwitchKeysNew, hdeg]
    · cases cIn with
      | nil => simp at hlen
      | cons a tl =>
          have htl : tl = [] := by
            have : tl.length = 0 := by simpa using hlen
            exact List.length_eq_zero.mp this
          subst htl
          rfl

/-- C7 witness: the amended statement evaluated on a concrete degree-0 input
and a degree-1 receiver over `ZMod 5`. -/
theorem C7_switchKeys_guards_witness :
    ((SwitchKeys (fun _ c => c) ([0] : List (ZMod 5)) [1, 2]).1 ≠ none ↔
        (bfvDegree ([0] : List (ZMod 5)) ≠ 1 ∨ bfvDegree ([1, 2] : List (ZMod 5)) ≠ 1)) ∧
    ((SwitchKeys (fun _ c => c) ([0] : List (ZMod 5)) [1, 2]).1 ≠ none →
        (SwitchKeys (fun _ c => c) ([0] : List (ZMod 5)) [1, 2]).2 = [1, 2]) ∧
    ((SwitchKeysNew (fun c => c) ([0] : List (ZMod 5))).1 ≠ none ↔
        1 < bfvDegree ([0] : List (ZMod 5))) ∧
    (([0] : List (ZMod 5)).length = 1 →
        (SwitchKeysNew (fun c => c) ([0] : List (ZMod 5))).1 = none ∧
          ([0] : List (ZMod 5))[1]? = none) :=
  C7_switchKeys_guards (fun _ c => c) (fun c => c) [0] [1, 2]

/-!
## CKKS decoding noise step (claim C5)

`decodePublic` (the complex128 encoder, backing `Decode` with `sigma = 0` and
`DecodePublic`) calls `gaussianSampler.ReadAndAddLvl` on the work polynomial
unconditionally, while `decodeCoeffsPublic` guards the same call with
`if sigma != 0`.  The sampler is external; it is modelled by an arbitrary
noise vector whose entries are bounded by the bound the code passes,
`uint64(2.5066282746310002 * sigma)`.
-/

/-- The integer bound the decoders pass to the Gaussian sampler:
`uint64(2.5066282746310002*sigma)` (truncation of the float product;
`sigma` is modelled as a rational). -/
def gaussBound (sigma : ℚ) : ℕ :=
  (Int.floor ((2.5066282746310002 : ℚ) * sigma)).toNat

/-- A sampler output admissible at parameter `sigma`: every coefficient of
the sampled noise polynomial is bounded by `gaussBound sigma`. -/
def AdmissibleNoise (sigma : ℚ) (noise : List ℤ) : Prop :=
  ∀ x ∈ noise, x.natAbs ≤ gaussBound sigma

/-- Whether `decodePublic` (complex128 encoder) executes the
sample-and-add step: the `ReadAndAddLvl` call is unconditional in the code. -/
def decodePublicSamples (_sigma : ℚ) : Bool := true

/-- Whether `decodeCoeffsPublic` executes the sample-and-add step: the call
sits under `if sigma != 0`. -/
def decodeCoeffsSamples (sigma : ℚ) : Bool := decide (sigma ≠ 0)

/-- `ReadAndAddLvl`: adds the sampled noise coefficientwise (each residue
row receives the same centered sample, here one slot stands for the row). -/
def addNoise {q : ℕ} (work : List (ZMod q)) (noise : List ℤ) : List (ZMod q) :=
  List.zipWith (fun w x => w + (x : ZMod q)) work noise

/-- The work polynomial of `decodePublic` after its noise step. -/
def decodePublicWork {q : ℕ} (sigma : ℚ) (noise : List ℤ)
    (work : List (ZMod q)) : List (ZMod q) :=
  if decodePublicSamples sigma then addNoise work noise else work

/-- The work polynomial of `decodeCoeffsPublic` after its guarded noise
step. -/
def decodeCoeffsPublicWork {q : ℕ} (sigma : ℚ) (noise : List ℤ)
    (work : List (ZMod q)) : List (ZMod q) :=
  if decodeCoeffsSamples sigma then addNoise work noise else work

/-- C5 counterexample: at `sigma = 0` the slot decoder `decodePublic` still
performs the sample-and-add step (the call is unguarded), while
`decodeCoeffsPublic` does not — refuting the claim that the step is performed
only for non-zero `sigma`. -/
theorem C5_counterexample :
    decodePublicSamples 0 = true ∧ decodeCoeffsSamples 0 = false := by
  constructor
  · rfl
  · simp [decodeCoeffsSamples]

/-- Every admissible noise coefficient at `sigma = 0` is zero, since the
bound passed to the sampler is `uint64(2.5066... * 0) = 0`. -/
theorem admissibleNoise_zero {x : ℤ} {noise : List ℤ}
    (hn : AdmissibleNoise 0 noise) (hx : x ∈ noise) : x = 0 := by
  have hb : gaussBound 0 = 0 := by
    simp [gaussBound]
  have := hn x hx
  rw [hb, Nat.le_zero] at this
  exact Int.natAbs_eq_zero.mp this

/-- Adding an all-zero noise vector (at least as long as the work
polynomial) leaves the work polynomial unchanged. -/
theorem addNoise_zero {q : ℕ} :
    ∀ (work : List (ZMod q)) (noise : List ℤ), (∀ x ∈ noise, x = 0) →
      work.length ≤ noise.length → addNoise work noise = work := by
  intro work
  induction work with
  | nil => intro noise _ _; simp [addNoise]
  | cons w tl ih =>
      intro noise hz hlen
      cases noise with
      | nil => simp at hlen
      | cons x xs =>
          have hx : x = 0 := hz x (by simp)
          have hxs : ∀ y ∈ xs, y = 0 := fun y hy => hz y (by simp [hy])
          have htl : addNoise tl xs = tl := ih xs hxs (by simpa using hlen)
          have hcons : addNoise (w :: tl) (x :: xs) =
              (w + (x : ZMod q)) :: addNoise tl xs := rfl
          rw [hcons, htl, hx]
          simp

/-- C5 (amended): in `decodePublic` the sample-and-add step runs
unconditionally, but at `sigma = 0` the bound passed to the sampler is 0, so
the added noise is identically zero and `Decode`'s work polynomial — hence
its result — is a deterministic function of the plaintext alone;
`decodeCoeffsPublic` reaches the same state through its explicit
`sigma != 0` guard. -/
theorem C5_decode_noise (q : ℕ) (sigma : ℚ) (noise : List ℤ)
    (work : List (ZMod q)) (hs : sigma = 0)
    (hn : AdmissibleNoise sigma noise)
    (hlen : work.length ≤ noise.length) :
    decodePublicWork sigma noise work = work ∧
      decodeCoeffsPublicWork sigma noise work = work := by
  subst hs
  have hz : addNoise work noise = work :=
    addNoise_zero work noise (fun x hx => admissibleNoise_zero hn hx) hlen
  have hcs : decodeCoeffsSamples (0 : ℚ) = false := by
    simp [decodeCoeffsSamples]
  constructor
  · simpa [decodePublicWork, decodePublicSamples] using hz
  · simp [decodeCoeffsPublicWork, hcs]

/-- C5 witness: the amended statement at `q = 5`, `sigma = 0`, a concrete
admissible (hence zero) noise vector and a concrete work polynomial. -/
theorem C5_decode_noise_witness :
    (0 : ℚ) = 0 ∧ AdmissibleNoise 0 [0, 0] ∧
      ([1, 2] : List (ZMod 5)).length ≤ ([0, 0] : List ℤ).length ∧
      (decodePublicWork 0 [0, 0] ([1, 2] : List (ZMod 5)) = [1, 2] ∧
        decodeCoeffsPublicWork 0 [0, 0] ([1, 2] : List (ZMod 5)) = [1, 2]) :=
  ⟨rfl, fun x hx => by simp at hx; subst hx; simp,
    by decide,
    C5_decode_noise 5 0 [0, 0] [1, 2] rfl
      (fun x hx => by simp at hx; subst hx; simp) (by decide)⟩

/-!
## In-place binary operations (claims C3 and C10)

`evaluateInPlaceBinary` mutates the receiver in place; the three operand
pointers may alias.  The heap is modelled as a map from three pointer
identities to polynomial lists (`Function.update` is the in-place write);
`evaluate` is the ring operation passed in by `Add`/`AddNoMod`/`Sub`/
`SubNoMod` (acting slot-wise on a polynomial, one slot shown).
-/

/-- The first loop of `evaluateInPlaceBinary`:
`for i := 0; i < minDegree+1; i++ { evaluate(el0.value[i], el1.value[i],
elOut.value[i]) }`, generalized to start `s` and count `c`.  Reads happen
from the current heap, so aliasing of `pOut` with `p0`/`p1` is represented
faithfully. -/
def evalLoop {R : Type} [Zero R] (f : R → R → R) (p0 p1 pOut : Fin 3)
    (s c : Nat) (w : Fin 3 → List R) : Fin 3 → List R :=
  (List.range' s c).foldl
    (fun w i => Function.update w pOut
      ((w pOut).set i (f ((w p0).getD i 0) ((w p1).getD i 0)))) w

/-- The second loop of `evaluateInPlaceBinary`:
`for i := minDegree + 1; i < maxDegree+1; i++ {
 largest.value[i].Copy(elOut.value[i]) }`. -/
def copyLoop {R : Type} [Zero R] (pl pOut : Fin 3) (s c : Nat)
    (w : Fin 3 → List R) : Fin 3 → List R :=
  (List.range' s c).foldl
    (fun w i => Function.update w pOut
      ((w pOut).set i ((w pl).getD i 0))) w

/-- The `largest` selection of `evaluateInPlaceBinary`: the operand of
strictly larger degree, if any. -/
def largestPtr {R : Type} (w : Fin 3 → List R) (p0 p1 : Fin 3) :
    Option (Fin 3) :=
  if bfvDegree (w p0) > bfvDegree (w p1) then some p0
  else if bfvDegree (w p1) > bfvDegree (w p0) then some p1
  else none

/-- Transcription of `evaluateInPlaceBinary` (`bfv/evaluator.go`): the
evaluate loop over `[0, minDegree]`, then — when the degrees differ and the
larger operand is not the receiver itself — the copy loop over
`[minDegree+1, maxDegree]`. -/
def evaluateInPlaceBinary {R : Type} [Zero R] (f : R → R → R)
    (w : Fin 3 → List R) (p0 p1 pOut : Fin 3) : Fin 3 → List R :=
  match largestPtr w p0 p1 with
  | some pl =>
      if pl ≠ pOut then
        copyLoop pl pOut (min (bfvDegree (w p0)) (bfvDegree (w p1)) + 1)
          (max (bfvDegree (w p0)) (bfvDegree (w p1)) -
            min (bfvDegree (w p0)) (bfvDegree (w p1)))
          (evalLoop f p0 p1 pOut 0
            (min (bfvDegree (w p0)) (bfvDegree (w p1)) + 1) w)
      else
        evalLoop f p0 p1 pOut 0
          (min (bfvDegree (w p0)) (bfvDegree (w p1)) + 1) w
  | none =>
      evalLoop f p0 p1 pOut 0
        (min (bfvDegree (w p0)) (bfvDegree (w p1)) + 1) w

/-- The variant of `evaluateInPlaceBinary` without the `largest != elOut`
guard: the copy loop always runs when the degrees differ, self-copying when
the receiver aliases the larger operand. -/
def evaluateInPlaceBinaryAC {R : Type} [Zero R] (f : R → R → R)
    (w : Fin 3 → List R) (p0 p1 pOut : Fin 3) : Fin 3 → List R :=
  match largestPtr w p0 p1 with
  | some pl =>
      copyLoop pl pOut (min (bfvDegree (w p0)) (bfvDegree (w p1)) + 1)
        (max (bfvDegree (w p0)) (bfvDegree (w p1)) -
          min (bfvDegree (w p0)) (bfvDegree (w p1)))
        (evalLoop f p0 p1 pOut 0
          (min (bfvDegree (w p0)) (bfvDegree (w p1)) + 1) w)
  | none =>
      evalLoop f p0 p1 pOut 0
        (min (bfvDegree (w p0)) (bfvDegree (w p1)) + 1) w

/-- The copy loop is the evaluate loop for the first-projection operation
reading the larger operand twice. -/
theorem copyLoop_eq_evalLoop {R : Type} [Zero R] (pl pOut : Fin 3)
    (s c : Nat) (w : Fin 3 → List R) :
    copyLoop pl pOut s c w = evalLoop (fun a _ => a) pl pl pOut s c w := rfl

/-- `Add` passes `contextQ.Add`: slot-wise modular addition. -/
def bfvAdd {R : Type} [CommRing R] (w : Fin 3 → List R) (p0 p1 pOut : Fin 3) :
    Fin 3 → List R :=
  evaluateInPlaceBinary (fun a b => a + b) w p0 p1 pOut

/-- `AddNoMod` passes `contextQ.AddNoMod`: the same residue value, without
the canonical reduction (the slot value is unchanged). -/
def bfvAddNoMod {R : Type} [CommRing R] (w : Fin 3 → List R)
    (p0 p1 pOut : Fin 3) : Fin 3 → List R :=
  evaluateInPlaceBinary (fun a b => a + b) w p0 p1 pOut

/-- `Sub` passes `contextQ.Sub`: slot-wise modular subtraction. -/
def bfvSub {R : Type} [CommRing R] (w : Fin 3 → List R) (p0 p1 pOut : Fin 3) :
    Fin 3 → List R :=
  evaluateInPlaceBinary (fun a b => a - b) w p0 p1 pOut

/-- `SubNoMod` passes `contextQ.SubNoMod`: same residue value as `Sub`. -/
def bfvSubNoMod {R : Type} [CommRing R] (w : Fin 3 → List R)
    (p0 p1 pOut : Fin 3) : Fin 3 → List R :=
  evaluateInPlaceBinary (fun a b => a - b) w p0 p1 pOut

/-- The operation applied after zero-padding both operands to the longer
length (out-of-range reads of `getD` are the padding zeros). -/
def padApply {R : Type} [Zero R] (f : R → R → R) (A B : List R) : List R :=
  (List.range' 0 (max A.length B.length)).map
    (fun i => f (A.getD i 0) (B.getD i 0))

/-- Reading slot `s` of `Q ++ l.drop s` (with `Q.length = s`) recovers slot
`s` of `l`: the pending writes below `s` do not affect the read at `s`. -/
theorem getD_prefix_drop {R : Type} [Zero R] (Q l : List R) (s : Nat)
    (hQ : Q.length = s) :
    (Q ++ l.drop s).getD s 0 = l.getD s 0 := by
  rw [List.getD_eq_getElem?_getD, List.getD_eq_getElem?_getD,
    List.getElem?_append_right (by omega), hQ, Nat.sub_self,
    List.getElem?_drop, Nat.add_zero]

/-- Writing slot `s` of `Q ++ l.drop s` (with `Q.length = s`, `s` in range)
moves the written value into the prefix. -/
theorem set_prefix_drop {R : Type} (Q l : List R) (s : Nat) (v : R)
    (hQ : Q.length = s) (hs : s < l.length) :
    (Q ++ l.drop s).set s v = (Q ++ [v]) ++ l.drop (s + 1) := by
  rw [List.set_append, if_neg (by omega), hQ, Nat.sub_self,
    List.drop_eq_getElem_cons hs, List.set_cons_zero, List.append_cons]

/-- A suffix of a list is the slots it stores over an index window followed
by the remaining suffix. -/
theorem drop_eq_map_getD_append {R : Type} [Zero R] :
    ∀ (c s : Nat) (l : List R), s + c ≤ l.length →
      l.drop s = (List.range' s c).map (fun i => l.getD i 0) ++ l.drop (s + c) := by
  intro c
  induction c with
  | zero => intro s l _; simp
  | succ c ih =>
      intro s l h
      have hs : s < l.length := by omega
      have hgs : l[s] = l.getD s 0 := by
        rw [List.getD_eq_getElem?_getD, List.getElem?_eq_getElem hs]
        rfl
      have harith : s + 1 + c = s + (c + 1) := by omega
      rw [List.drop_eq_getElem_cons hs, List.range'_succ, List.map_cons, hgs]
      rw [show l.drop (s + 1) =
          (List.range' (s + 1) c).map (fun i => l.getD i 0) ++ l.drop (s + 1 + c)
        from ih (s + 1) l (by omega), harith]
      simp [List.cons_append]

/-- Characterization of the evaluate loop: starting from a heap whose
receiver is `Q ++ (w0 pOut).drop s` (the original receiver with the first
`s` slots already rewritten to `Q`) and whose other pointers still hold the
original values, the fold over indices `[s, s+c)` appends the pointwise
`f`-images of the ORIGINAL operand slots, for every aliasing configuration
of the three pointers. -/
theorem evalLoop_spec {R : Type} [Zero R] (f : R → R → R) (p0 p1 pOut : Fin 3)
    (w0 : Fin 3 → List R) :
    ∀ (c s : Nat) (w : Fin 3 → List R) (Q : List R),
      (∀ p, p ≠ pOut → w p = w0 p) →
      w pOut = Q ++ (w0 pOut).drop s →
      Q.length = s →
      s + c ≤ (w0 pOut).length →
      (∀ p, p ≠ pOut → evalLoop f p0 p1 pOut s c w p = w0 p) ∧
      evalLoop f p0 p1 pOut s c w pOut =
        Q ++ (List.range' s c).map
            (fun i => f ((w0 p0).getD i 0) ((w0 p1).getD i 0))
          ++ (w0 pOut).drop (s + c) := by
  intro c
  induction c with
  | zero =>
      intro s w Q hother hout hQ _
      constructor
      · intro p hp
        simpa [evalLoop] using hother p hp
      · simpa [evalLoop] using hout
  | succ c ih =>
      intro s w Q hother hout hQ hsc
      have hs : s < (w0 pOut).length := by omega
      have hread0 : (w p0).getD s 0 = (w0 p0).getD s 0 := by
        by_cases h : p0 = pOut
        · subst h
          rw [hout, getD_prefix_drop _ _ _ hQ]
        · rw [hother p0 h]
      have hread1 : (w p1).getD s 0 = (w0 p1).getD s 0 := by
        by_cases h : p1 = pOut
        · subst h
          rw [hout, getD_prefix_drop _ _ _ hQ]
        · rw [hother p1 h]
      have hstep : evalLoop f p0 p1 pOut s (c + 1) w =
          evalLoop f p0 p1 pOut (s + 1) c
            (Function.update w pOut
              ((w pOut).set s (f ((w p0).getD s 0) ((w p1).getD s 0)))) := rfl
      have hother' : ∀ p, p ≠ pOut →
          (Function.update w pOut
            ((w pOut).set s (f ((w p0).getD s 0) ((w p1).getD s 0)))) p = w0 p :=
        fun p hp => by
          rw [Function.update_noteq hp]
          exact hother p hp
      have hout' : (Function.update w pOut
            ((w pOut).set s (f ((w p0).getD s 0) ((w p1).getD s 0)))) pOut =
          (Q ++ [f ((w0 p0).getD s 0) ((w0 p1).getD s 0)]) ++
            (w0 pOut).drop (s + 1) := by
        rw [Function.update_same, hout, hread0, hread1,
          set_prefix_drop Q _ s _ hQ hs]
      obtain ⟨ih1, ih2⟩ := ih (s + 1)
        (Function.update w pOut
          ((w pOut).set s (f ((w p0).getD s 0) ((w p1).getD s 0))))
        (Q ++ [f ((w0 p0).getD s 0) ((w0 p1).getD s 0)])
        hother' hout' (by simp [hQ]) (by omega)
      constructor
      · intro p hp
        rw [hstep]
        exact ih1 p hp
      · rw [hstep, ih2, List.range'_succ, List.map_cons]
        have harith : s + 1 + c = s + (c + 1) := by omega
        rw [harith]
        simp [List.append_assoc]

/-- Overwriting a slot with its own current value is a no-op. -/
theorem set_getD_self {R : Type} [Zero R] (l : List R) (n : Nat)
    (h : n < l.length) : l.set n (l.getD n 0) = l := by
  apply List.ext_getElem?
  intro m
  by_cases hm : n = m
  · subst hm
    rw [List.getElem?_set_self h, List.getD_eq_getElem?_getD,
      List.getElem?_eq_getElem h]
    rfl
  · rw [List.getElem?_set_ne hm]

/-- The copy loop is a heap no-op when the larger operand aliases the
receiver (self-copy). -/
theorem copyLoop_self {R : Type} [Zero R] (pOut : Fin 3) :
    ∀ (c s : Nat) (w : Fin 3 → List R), s + c ≤ (w pOut).length →
      copyLoop pOut pOut s c w = w := by
  intro c
  induction c with
  | zero => intro s w _; rfl
  | succ c ih =>
      intro s w h
      have hs : s < (w pOut).length := by omega
      have hstep : copyLoop pOut pOut s (c + 1) w =
          copyLoop pOut pOut (s + 1) c
            (Function.update w pOut ((w pOut).set s ((w pOut).getD s 0))) := rfl
      rw [hstep, set_getD_self _ _ hs, Function.update_eq_self]
      exact ih (s + 1) w (by omega)

/-- The intended receiver contents after `evaluateInPlaceBinary`: pointwise
`f`-images on `[0, minDegree]`, the larger operand's original slots on
`[minDegree+1, maxDegree]`, and the untouched receiver suffix above
`maxDegree`. -/
def evalIPBResult {R : Type} [Zero R] (f : R → R → R) (w : Fin 3 → List R)
    (p0 p1 pOut : Fin 3) : List R :=
  (List.range' 0 (min (bfvDegree (w p0)) (bfvDegree (w p1)) + 1)).map
      (fun i => f ((w p0).getD i 0) ((w p1).getD i 0))
    ++ (List.range' (min (bfvDegree (w p0)) (bfvDegree (w p1)) + 1)
          (max (bfvDegree (w p0)) (bfvDegree (w p1)) -
            min (bfvDegree (w p0)) (bfvDegree (w p1)))).map
        (fun i =>
          (w (if bfvDegree (w p0) < bfvDegree (w p1) then p1 else p0)).getD i 0)
    ++ (w pOut).drop (max (bfvDegree (w p0)) (bfvDegree (w p1)) + 1)

/-- Characterization of the always-copy variant: other pointers untouched,
and the receiver holds `evalIPBResult`. -/
theorem evaluateInPlaceBinaryAC_spec {R : Type} [Zero R] (f : R → R → R)
    (w : Fin 3 → List R) (p0 p1 pOut : Fin 3)
    (hlen : max (bfvDegree (w p0)) (bfvDegree (w p1)) + 1 ≤ (w pOut).length) :
    (∀ p, p ≠ pOut → evaluateInPlaceBinaryAC f w p0 p1 pOut p = w p) ∧
    evaluateInPlaceBinaryAC f w p0 p1 pOut pOut = evalIPBResult f w p0 p1 pOut := by
  obtain ⟨h1, h2⟩ := evalLoop_spec f p0 p1 pOut w
    (min (bfvDegree (w p0)) (bfvDegree (w p1)) + 1) 0 w []
    (fun p _ => rfl) (by simp) rfl (by omega)
  simp only [List.nil_append, Nat.zero_add] at h2
  have harith : min (bfvDegree (w p0)) (bfvDegree (w p1)) + 1 +
      (max (bfvDegree (w p0)) (bfvDegree (w p1)) -
        min (bfvDegree (w p0)) (bfvDegree (w p1))) =
      max (bfvDegree (w p0)) (bfvDegree (w p1)) + 1 := by omega
  by_cases hgt : bfvDegree (w p1) < bfvDegree (w p0)
  · have hl : largestPtr w p0 p1 = some p0 := by simp [largestPtr, hgt]
    have he : evaluateInPlaceBinaryAC f w p0 p1 pOut =
        copyLoop p0 pOut (min (bfvDegree (w p0)) (bfvDegree (w p1)) + 1)
          (max (bfvDegree (w p0)) (bfvDegree (w p1)) -
            min (bfvDegree (w p0)) (bfvDegree (w p1)))
          (evalLoop f p0 p1 pOut 0
            (min (bfvDegree (w p0)) (bfvDegree (w p1)) + 1) w) := by
      simp [evaluateInPlaceBinaryAC, hl]
    obtain ⟨g1, g2⟩ := evalLoop_spec (fun a _ => a) p0 p0 pOut w
      (max (bfvDegree (w p0)) (bfvDegree (w p1)) -
        min (bfvDegree (w p0)) (bfvDegree (w p1)))
      (min (bfvDegree (w p0)) (bfvDegree (w p1)) + 1)
      (evalLoop f p0 p1 pOut 0
        (min (bfvDegree (w p0)) (bfvDegree (w p1)) + 1) w)
      ((List.range' 0 (min (bfvDegree (w p0)) (bfvDegree (w p1)) + 1)).map
        (fun i => f ((w p0).getD i 0) ((w p1).getD i 0)))
      h1 h2 (by simp) (by omega)
    rw [harith] at g2
    constructor
    · intro p hp
      rw [he, copyLoop_eq_evalLoop]
      exact g1 p hp
    · rw [he, copyLoop_eq_evalLoop]
      simp only [evalIPBResult]
      rw [if_neg (by omega)]
      exact g2
  · by_cases hlt : bfvDegree (w p0) < bfvDegree (w p1)
    · have hl : largestPtr w p0 p1 = some p1 := by
        simp [largestPtr, hlt, Nat.not_lt.mpr (Nat.le_of_lt hlt)]
      have he : evaluateInPlaceBinaryAC f w p0 p1 pOut =
          copyLoop p1 pOut (min (bfvDegree (w p0)) (bfvDegree (w p1)) + 1)
            (max (bfvDegree (w p0)) (bfvDegree (w p1)) -
              min (bfvDegree (w p0)) (bfvDegree (w p1)))
            (evalLoop f p0 p1 pOut 0
              (min (bfvDegree (w p0)) (bfvDegree (w p1)) + 1) w) := by
        simp [evaluateInPlaceBinaryAC, hl]
      obtain ⟨g1, g2⟩ := evalLoop_spec (fun a _ => a) p1 p1 pOut w
        (max (bfvDegree (w p0)) (bfvDegree (w p1)) -
          min (bfvDegree (w p0)) (bfvDegree (w p1)))
        (min (bfvDegree (w p0)) (bfvDegree (w p1)) + 1)
        (evalLoop f p0 p1 pOut 0
          (min (bfvDegree (w p0)) (bfvDegree (w p1)) + 1) w)
        ((List.range' 0 (min (bfvDegree (w p0)) (bfvDegree (w p1)) + 1)).map
          (fun i => f ((w p0).getD i 0) ((w p1).getD i 0)))
        h1 h2 (by simp) (by omega)
      rw [harith] at g2
      constructor
      · intro p hp
        rw [he, copyLoop_eq_evalLoop]
        exact g1 p hp
      · rw [he, copyLoop_eq_evalLoop]
        simp only [evalIPBResult]
        rw [if_pos hlt]
        exact g2
    · have heq : bfvDegree (w p0) = bfvDegree (w p1) := by omega
      have hl : largestPtr w p0 p1 = none := by
        simp [largestPtr, hgt, hlt]
      have he : evaluateInPlaceBinaryAC f w p0 p1 pOut =
          evalLoop f p0 p1 pOut 0
            (min (bfvDegree (w p0)) (bfvDegree (w p1)) + 1) w := by
        simp [evaluateInPlaceBinaryAC, hl]
      have hzero : max (bfvDegree (w p0)) (bfvDegree (w p1)) -
          min (bfvDegree (w p0)) (bfvDegree (w p1)) = 0 := by omega
      have hmm : min (bfvDegree (w p0)) (bfvDegree (w p1)) =
          max (bfvDegree (w p0)) (bfvDegree (w p1)) := by omega
      constructor
      · intro p hp
        rw [he]
        exact h1 p hp
      · rw [he, h2]
        simp only [evalIPBResult, hzero, List.range'_zero, List.map_nil,
          List.nil_append, List.append_nil]
        rw [hmm]

/-- Reading beyond the end of a list yields the default (the zero-padding
read). -/
theorem getD_of_len_le {R : Type} (l : List R) (i : Nat) (d : R)
    (h : l.length ≤ i) : l.getD i d = d := by
  rw [List.getD_eq_getElem?_getD, List.getElem?_eq_none h]
  rfl

/-- The `largest != elOut` guard changes nothing: skipping the copy loop
when the receiver aliases the larger operand produces the same heap as
running it (the skipped copies would be self-copies). -/
theorem evaluateInPlaceBinary_eq_AC {R : Type} [Zero R] (f : R → R → R)
    (w : Fin 3 → List R) (p0 p1 pOut : Fin 3)
    (hlen : max (bfvDegree (w p0)) (bfvDegree (w p1)) + 1 ≤ (w pOut).length) :
    evaluateInPlaceBinary f w p0 p1 pOut = evaluateInPlaceBinaryAC f w p0 p1 pOut := by
  cases hl : largestPtr w p0 p1 with
  | none => simp [evaluateInPlaceBinary, evaluateInPlaceBinaryAC, hl]
  | some pl =>
      by_cases hpo : pl ≠ pOut
      · simp [evaluateInPlaceBinary, evaluateInPlaceBinaryAC, hl, hpo]
      · push_neg at hpo
        subst hpo
        obtain ⟨h1, h2⟩ := evalLoop_spec f p0 p1 pl w
          (min (bfvDegree (w p0)) (bfvDegree (w p1)) + 1) 0 w []
          (fun p _ => rfl) (by simp) rfl (by omega)
        simp only [List.nil_append, Nat.zero_add] at h2
        have hlen1 : (evalLoop f p0 p1 pl 0
            (min (bfvDegree (w p0)) (bfvDegree (w p1)) + 1) w pl).length =
            (w pl).length := by
          rw [h2]
          simp only [List.length_append, List.length_map, List.length_range',
            List.length_drop]
          omega
        simp only [evaluateInPlaceBinary, evaluateInPlaceBinaryAC, hl,
          ne_eq, not_true_eq_false, if_false, ite_false]
        rw [copyLoop_self pl
          (max (bfvDegree (w p0)) (bfvDegree (w p1)) -
            min (bfvDegree (w p0)) (bfvDegree (w p1)))
          (min (bfvDegree (w p0)) (bfvDegree (w p1)) + 1)
          (evalLoop f p0 p1 pl 0
            (min (bfvDegree (w p0)) (bfvDegree (w p1)) + 1) w)
          (by rw [hlen1]; omega)]

/-- Characterization of `evaluateInPlaceBinary`: other pointers untouched,
and the receiver holds `evalIPBResult`. -/
theorem evaluateInPlaceBinary_spec {R : Type} [Zero R] (f : R → R → R)
    (w : Fin 3 → List R) (p0 p1 pOut : Fin 3)
    (hlen : max (bfvDegree (w p0)) (bfvDegree (w p1)) + 1 ≤ (w pOut).length) :
    (∀ p, p ≠ pOut → evaluateInPlaceBinary f w p0 p1 pOut p = w p) ∧
    evaluateInPlaceBinary f w p0 p1 pOut pOut = evalIPBResult f w p0 p1 pOut := by
  rw [evaluateInPlaceBinary_eq_AC f w p0 p1 pOut hlen]
  exact evaluateInPlaceBinaryAC_spec f w p0 p1 pOut hlen

/-- The written window of the receiver (`[0, maxDegree]`) after
`evaluateInPlaceBinary`. -/
theorem take_evalIPB {R : Type} [Zero R] (f : R → R → R)
    (w : Fin 3 → List R) (p0 p1 pOut : Fin 3)
    (hlen : max (bfvDegree (w p0)) (bfvDegree (w p1)) + 1 ≤ (w pOut).length) :
    (evaluateInPlaceBinary f w p0 p1 pOut pOut).take
        (max (bfvDegree (w p0)) (bfvDegree (w p1)) + 1) =
      (List.range' 0 (min (bfvDegree (w p0)) (bfvDegree (w p1)) + 1)).map
          (fun i => f ((w p0).getD i 0) ((w p1).getD i 0))
        ++ (List.range' (min (bfvDegree (w p0)) (bfvDegree (w p1)) + 1)
              (max (bfvDegree (w p0)) (bfvDegree (w p1)) -
                min (bfvDegree (w p0)) (bfvDegree (w p1)))).map
            (fun i =>
              (w (if bfvDegree (w p0) < bfvDegree (w p1) then p1 else p0)).getD i 0) := by
  rw [(evaluateInPlaceBinary_spec f w p0 p1 pOut hlen).2]
  simp only [evalIPBResult]
  exact List.take_left' (by
    simp only [List.length_append, List.length_map, List.length_range']
    omega)

/-- The zero-padded pointwise application split at the shorter length. -/
theorem padApply_split {R : Type} [Zero R] (f : R → R → R) (A B : List R)
    (hA : 1 ≤ A.length) (hB : 1 ≤ B.length) :
    padApply f A B =
      (List.range' 0 (min (bfvDegree A) (bfvDegree B) + 1)).map
          (fun i => f (A.getD i 0) (B.getD i 0))
        ++ (List.range' (min (bfvDegree A) (bfvDegree B) + 1)
              (max (bfvDegree A) (bfvDegree B) - min (bfvDegree A) (bfvDegree B))).map
            (fun i => f (A.getD i 0) (B.getD i 0)) := by
  unfold padApply
  have hr : List.range' 0 (min (bfvDegree A) (bfvDegree B) + 1) ++
      List.range' (0 + (min (bfvDegree A) (bfvDegree B) + 1))
        (max (bfvDegree A) (bfvDegree B) - min (bfvDegree A) (bfvDegree B)) =
      List.range' 0
        ((max (bfvDegree A) (bfvDegree B) - min (bfvDegree A) (bfvDegree B)) +
          (min (bfvDegree A) (bfvDegree B) + 1)) :=
    List.range'_append_1 _ _ _
  rw [Nat.zero_add] at hr
  have harith : max A.length B.length =
      (max (bfvDegree A) (bfvDegree B) - min (bfvDegree A) (bfvDegree B)) +
        (min (bfvDegree A) (bfvDegree B) + 1) := by
    simp only [bfvDegree]
    omega
  rw [← List.map_append, hr, harith]

/-- C10: above `maxDegree` the receiver is never written (its length and its
suffix are preserved), and skipping the copy loop when the receiver aliases
the strictly-higher-degree operand (the `largest != elOut` guard) yields the
same heap as the unconditional copy rule. -/
theorem C10_frame_effect {R : Type} [Zero R] (f : R → R → R)
    (w : Fin 3 → List R) (p0 p1 pOut : Fin 3)
    (hlen : max (bfvDegree (w p0)) (bfvDegree (w p1)) + 1 ≤ (w pOut).length) :
    (evaluateInPlaceBinary f w p0 p1 pOut pOut).length = (w pOut).length ∧
    (evaluateInPlaceBinary f w p0 p1 pOut pOut).drop
        (max (bfvDegree (w p0)) (bfvDegree (w p1)) + 1) =
      (w pOut).drop (max (bfvDegree (w p0)) (bfvDegree (w p1)) + 1) ∧
    evaluateInPlaceBinary f w p0 p1 pOut = evaluateInPlaceBinaryAC f w p0 p1 pOut := by
  refine ⟨?_, ?_, evaluateInPlaceBinary_eq_AC f w p0 p1 pOut hlen⟩
  · rw [(evaluateInPlaceBinary_spec f w p0 p1 pOut hlen).2]
    simp only [evalIPBResult, List.length_append, List.length_map,
      List.length_range', List.length_drop]
    omega
  · rw [(evaluateInPlaceBinary_spec f w p0 p1 pOut hlen).2]
    simp only [evalIPBResult]
    exact List.drop_left' (by
      simp only [List.length_append, List.length_map, List.length_range']
      omega)

/-- C10 witness: the frame conditions evaluated at a concrete heap over
`ZMod 5` with distinct pointers, operands of degrees 1 and 0 and a receiver
of degree 2. -/
theorem C10_frame_effect_witness :
    (evaluateInPlaceBinary (fun a b : ZMod 5 => a + b)
        (fun p => if p = 0 then [1, 2] else if p = 1 then [3] else [4, 0, 1])
        0 1 2 2).length =
      ((fun p : Fin 3 => if p = 0 then [1, 2] else if p = 1 then [3]
        else [4, 0, 1]) 2).length ∧
    (evaluateInPlaceBinary (fun a b : ZMod 5 => a + b)
        (fun p => if p = 0 then [1, 2] else if p = 1 then [3] else [4, 0, 1])
        0 1 2 2).drop
        (max (bfvDegree ((fun p : Fin 3 => if p = 0 then [1, 2]
            else if p = 1 then [3] else [4, 0, 1]) 0))
          (bfvDegree ((fun p : Fin 3 => if p = 0 then [1, 2]
            else if p = 1 then [3] else [4, 0, 1]) 1)) + 1) =
      ((fun p : Fin 3 => if p = 0 then [1, 2] else if p = 1 then [3]
        else [4, 0, 1]) 2).drop
        (max (bfvDegree ((fun p : Fin 3 => if p = 0 then [1, 2]
            else if p = 1 then [3] else [4, 0, 1]) 0))
          (bfvDegree ((fun p : Fin 3 => if p = 0 then [1, 2]
            else if p = 1 then [3] else [4, 0, 1]) 1)) + 1) ∧
    evaluateInPlaceBinary (fun a b : ZMod 5 => a + b)
        (fun p => if p = 0 then [1, 2] else if p = 1 then [3] else [4, 0, 1])
        0 1 2 =
      evaluateInPlaceBinaryAC (fun a b : ZMod 5 => a + b)
        (fun p => if p = 0 then [1, 2] else if p = 1 then [3] else [4, 0, 1])
        0 1 2 :=
  C10_frame_effect (fun a b : ZMod 5 => a + b)
    (fun p => if p = 0 then [1, 2] else if p = 1 then [3] else [4, 0, 1])
    0 1 2 (by decide)

/-- C3 counterexample: `Sub` on a degree-0 first operand and a degree-1
second operand copies the second operand's extra polynomial to the receiver,
whereas subtracting after zero-padding would negate it: over `ZMod 5`, the
receiver ends `[0, 1]` but the zero-padded subtraction is `[0, 4]`. -/
theorem C3_counterexample :
    bfvSub (fun p => if p = 0 then [0] else if p = 1 then [0, 1] else [0, 0])
        0 1 2 2 ≠
      padApply (fun a b : ZMod 5 => a - b) [0] [0, 1] := by
  decide

/-- The larger operand has length `maxDegree + 1`. -/
theorem length_largest {R : Type} (w : Fin 3 → List R) (p0 p1 : Fin 3)
    (h0 : 1 ≤ (w p0).length) (h1 : 1 ≤ (w p1).length) :
    (w (if bfvDegree (w p0) < bfvDegree (w p1) then p1 else p0)).length =
      max (bfvDegree (w p0)) (bfvDegree (w p1)) + 1 := by
  by_cases hc : bfvDegree (w p0) < bfvDegree (w p1)
  · rw [if_pos hc]
    simp only [bfvDegree] at hc ⊢
    omega
  · rw [if_neg hc]
    simp only [bfvDegree] at hc ⊢
    omega

/-- When the copied slots agree with the zero-padded `f`-images, the written
window of the receiver is exactly the zero-padded pointwise application. -/
theorem take_eq_padApply_of {R : Type} [Zero R] (f : R → R → R)
    (w : Fin 3 → List R) (p0 p1 pOut : Fin 3)
    (h0 : 1 ≤ (w p0).length) (h1 : 1 ≤ (w p1).length)
    (hlen : max (bfvDegree (w p0)) (bfvDegree (w p1)) + 1 ≤ (w pOut).length)
    (hmid : ∀ i, min (bfvDegree (w p0)) (bfvDegree (w p1)) + 1 ≤ i →
        (w (if bfvDegree (w p0) < bfvDegree (w p1) then p1 else p0)).getD i 0 =
          f ((w p0).getD i 0) ((w p1).getD i 0)) :
    (evaluateInPlaceBinary f w p0 p1 pOut pOut).take
        (max (bfvDegree (w p0)) (bfvDegree (w p1)) + 1) =
      padApply f (w p0) (w p1) := by
  rw [take_evalIPB f w p0 p1 pOut hlen, padApply_split f (w p0) (w p1) h0 h1]
  congr 1
  apply List.map_congr_left
  intro i hi
  rw [List.mem_range'_1] at hi
  exact hmid i hi.1

/-- C3 (amended): for every in-place binary operation the receiver's
polynomials at indices `minDegree+1 .. maxDegree` are copies of the
higher-degree operand's; the overall written window equals the operation
applied after zero-padding the shorter operand for `Add` and `AddNoMod` (any
degrees) and for `Sub`/`SubNoMod` when the first operand's degree is at
least the second's — but for `Sub`/`SubNoMod` with a strictly higher-degree
second operand the extra polynomials are the copies `B_i`, not the `-B_i`
that zero-padding would give. -/
theorem C3_copy_rule {R : Type} [CommRing R] (f : R → R → R)
    (w : Fin 3 → List R) (p0 p1 pOut : Fin 3)
    (h0 : 1 ≤ (w p0).length) (h1 : 1 ≤ (w p1).length)
    (hlen : max (bfvDegree (w p0)) (bfvDegree (w p1)) + 1 ≤ (w pOut).length) :
    ((evaluateInPlaceBinary f w p0 p1 pOut pOut).take
        (max (bfvDegree (w p0)) (bfvDegree (w p1)) + 1)).drop
        (min (bfvDegree (w p0)) (bfvDegree (w p1)) + 1) =
      ((w (if bfvDegree (w p0) < bfvDegree (w p1) then p1 else p0)).take
        (max (bfvDegree (w p0)) (bfvDegree (w p1)) + 1)).drop
        (min (bfvDegree (w p0)) (bfvDegree (w p1)) + 1) ∧
    (bfvAdd w p0 p1 pOut pOut).take
        (max (bfvDegree (w p0)) (bfvDegree (w p1)) + 1) =
      padApply (fun a b => a + b) (w p0) (w p1) ∧
    (bfvAddNoMod w p0 p1 pOut pOut).take
        (max (bfvDegree (w p0)) (bfvDegree (w p1)) + 1) =
      padApply (fun a b => a + b) (w p0) (w p1) ∧
    (bfvDegree (w p1) ≤ bfvDegree (w p0) →
      (bfvSub w p0 p1 pOut pOut).take
          (max (bfvDegree (w p0)) (bfvDegree (w p1)) + 1) =
        padApply (fun a b => a - b) (w p0) (w p1)) ∧
    (bfvDegree (w p1) ≤ bfvDegree (w p0) →
      (bfvSubNoMod w p0 p1 pOut pOut).take
          (max (bfvDegree (w p0)) (bfvDegree (w p1)) + 1) =
        padApply (fun a b => a - b) (w p0) (w p1)) := by
  have hpL := length_largest w p0 p1 h0 h1
  have haddmid : ∀ i, min (bfvDegree (w p0)) (bfvDegree (w p1)) + 1 ≤ i →
      (w (if bfvDegree (w p0) < bfvDegree (w p1) then p1 else p0)).getD i 0 =
        (w p0).getD i 0 + (w p1).getD i 0 := by
    intro i hi
    by_cases hc : bfvDegree (w p0) < bfvDegree (w p1)
    · rw [if_pos hc]
      have hz : (w p0).getD i 0 = 0 := getD_of_len_le _ _ _ (by
        simp only [bfvDegree] at hc hi
        omega)
      rw [hz, zero_add]
    · rw [if_neg hc]
      have hz : (w p1).getD i 0 = 0 := getD_of_len_le _ _ _ (by
        simp only [bfvDegree] at hc hi
        omega)
      rw [hz, add_zero]
  have hsubmid : bfvDegree (w p1) ≤ bfvDegree (w p0) →
      ∀ i, min (bfvDegree (w p0)) (bfvDegree (w p1)) + 1 ≤ i →
      (w (if bfvDegree (w p0) < bfvDegree (w p1) then p1 else p0)).getD i 0 =
        (w p0).getD i 0 - (w p1).getD i 0 := by
    intro hd i hi
    rw [if_neg (by omega)]
    have hz : (w p1).getD i 0 = 0 := getD_of_len_le _ _ _ (by
      simp only [bfvDegree] at hd hi ⊢
      omega)
    rw [hz, sub_zero]
  refine ⟨?_, ?_, ?_, ?_, ?_⟩
  · rw [take_evalIPB f w p0 p1 pOut hlen]
    rw [List.drop_left' (by simp only [List.length_map, List.length_range'])]
    have htake : (w (if bfvDegree (w p0) < bfvDegree (w p1) then p1 else p0)).take
        (max (bfvDegree (w p0)) (bfvDegree (w p1)) + 1) =
        w (if bfvDegree (w p0) < bfvDegree (w p1) then p1 else p0) := by
      rw [← hpL, List.take_length]
    rw [htake]
    have hdecomp := drop_eq_map_getD_append
      (max (bfvDegree (w p0)) (bfvDegree (w p1)) -
        min (bfvDegree (w p0)) (bfvDegree (w p1)))
      (min (bfvDegree (w p0)) (bfvDegree (w p1)) + 1)
      (w (if bfvDegree (w p0) < bfvDegree (w p1) then p1 else p0))
      (by rw [hpL]; omega)
    have harith : min (bfvDegree (w p0)) (bfvDegree (w p1)) + 1 +
        (max (bfvDegree (w p0)) (bfvDegree (w p1)) -
          min (bfvDegree (w p0)) (bfvDegree (w p1))) =
        max (bfvDegree (w p0)) (bfvDegree (w p1)) + 1 := by omega
    rw [harith] at hdecomp
    rw [hdecomp, List.drop_eq_nil_of_le (by rw [hpL]), List.append_nil]
  · exact take_eq_padApply_of _ w p0 p1 pOut h0 h1 hlen haddmid
  · exact take_eq_padApply_of _ w p0 p1 pOut h0 h1 hlen haddmid
  · intro hd
    exact take_eq_padApply_of _ w p0 p1 pOut h0 h1 hlen (hsubmid hd)
  · intro hd
    exact take_eq_padApply_of _ w p0 p1 pOut h0 h1 hlen (hsubmid hd)

/-- C3 witness: the amended statement evaluated on the heap of the
counterexample configuration (degree-0 and degree-1 operands over
`ZMod 5`). -/
theorem C3_copy_rule_witness :
    (1 ≤ (([0] : List (ZMod 5))).length) ∧
    (1 ≤ (([0, 1] : List (ZMod 5))).length) ∧
    ((bfvSub (fun p => if p = 0 then [0] else if p = 1 then [0, 1] else [0, 0])
        0 1 2 2).take 2).drop 1 =
      ((([0, 1] : List (ZMod 5)).take 2)).drop 1 := by
  refine ⟨by decide, by decide, ?_⟩
  have h := (C3_copy_rule (fun a b : ZMod 5 => a - b)
    (fun p => if p = 0 then [0] else if p = 1 then [0, 1] else [0, 0])
    0 1 2 (by decide) (by decide) (by decide)).1
  simpa using h

/-!
## switchKeys lazy-reduction schedule (claim C4)

`switchKeys` accumulates `MulCoeffsMontgomeryAndAddNoMod` products into
`cOut.value[0]` and `cOut.value[1]`, with `if reduce&7 == 7 { Reduce }`
inside the nested (modulus, digit) loop and `if (reduce-1)&7 != 7 { Reduce }`
after it (`reduce` is a `uint64`, so `reduce-1` wraps at zero).  One
coefficient slot of one output polynomial is modelled; the nested loop is
flattened into the list `prods` of the Montgomery products added to the
slot, each canonically below the modulus `q` (the Montgomery multiplier of
the external ring package reduces its output below `q`, per the spec).
-/

/-- One accumulate step of `switchKeys`: the NoMod addition of the next
product, then the conditional `Reduce` when the counter masks to 7; the
state is `(coefficient, reduce counter, trace of intermediate values)`. -/
def skStep (q : ℕ) (st : ℕ × ℕ × List ℕ) (p : ℕ) : ℕ × ℕ × List ℕ :=
  let c1 := st.1 + p
  let c2 := if st.2.1 &&& 7 = 7 then c1 % q else c1
  (c2, st.2.1 + 1, st.2.2 ++ [c1, c2])

/-- The whole `switchKeys` accumulation on one coefficient slot: the fold
over all (modulus, digit) products followed by the trailing conditional
`Reduce` under `(reduce-1)&7 != 7` with the `uint64` wrap of `reduce-1`.
Returns the final value and the trace of every intermediate value. -/
def switchKeys64 (q init : ℕ) (prods : List ℕ) : ℕ × List ℕ :=
  let res := prods.foldl (skStep q) (init, 0, [])
  let fin := if (res.2.1 + (2 ^ 64 - 1)) % 2 ^ 64 &&& 7 ≠ 7
    then res.1 % q else res.1
  (fin, res.2.2 ++ [fin])

/-- Invariant of the `switchKeys` accumulation fold: the counter counts the
accumulations, the coefficient stays below `q * (counter % 8 + 1)`, its
residue is the residue of the true sum, and every new trace entry is below
`2^64`. -/
theorem skFold_inv (q : ℕ) (hq : 0 < q) (hbound : 9 * q ≤ 2 ^ 64) :
    ∀ (prods : List ℕ) (c cnt : ℕ) (tr : List ℕ),
      (∀ p ∈ prods, p < q) → c < q * (cnt % 8 + 1) →
      (prods.foldl (skStep q) (c, cnt, tr)).2.1 = cnt + prods.length ∧
      (prods.foldl (skStep q) (c, cnt, tr)).1 <
        q * ((prods.foldl (skStep q) (c, cnt, tr)).2.1 % 8 + 1) ∧
      (prods.foldl (skStep q) (c, cnt, tr)).1 % q = (c + prods.sum) % q ∧
      (∀ x ∈ (prods.foldl (skStep q) (c, cnt, tr)).2.2, x ∈ tr ∨ x < 2 ^ 64) := by
  intro prods
  induction prods with
  | nil =>
      intro c cnt tr _ hc
      refine ⟨by simp, by simpa using hc, by simp, ?_⟩
      intro x hx
      exact Or.inl hx
  | cons p ps ih =>
      intro c cnt tr hp hc
      have hm : cnt &&& 7 = cnt % 8 := Nat.and_pow_two_sub_one_eq_mod cnt 3
      have hcnt8 : cnt % 8 ≤ 7 := by omega
      have hpq : p < q := hp p (by simp)
      have hc1 : c + p < q * (cnt % 8 + 2) := by nlinarith
      have hc1w : c + p < 2 ^ 64 := by nlinarith
      have hstep : skStep q (c, cnt, tr) p =
          (if cnt % 8 = 7 then (c + p) % q else c + p, cnt + 1,
            tr ++ [c + p, if cnt % 8 = 7 then (c + p) % q else c + p]) := by
        simp only [skStep, hm]
      have hfold : (p :: ps).foldl (skStep q) (c, cnt, tr) =
          ps.foldl (skStep q)
            (if cnt % 8 = 7 then (c + p) % q else c + p, cnt + 1,
              tr ++ [c + p, if cnt % 8 = 7 then (c + p) % q else c + p]) := by
        rw [List.foldl_cons, hstep]
      have hps : ∀ x ∈ ps, x < q := fun x hx => hp x (by simp [hx])
      have hinv' : (if cnt % 8 = 7 then (c + p) % q else c + p) <
          q * ((cnt + 1) % 8 + 1) := by
        by_cases h8 : cnt % 8 = 7
        · rw [if_pos h8]
          have : (c + p) % q < q := Nat.mod_lt _ hq
          nlinarith [Nat.zero_le ((cnt + 1) % 8)]
        · rw [if_neg h8]
          have : (cnt + 1) % 8 = cnt % 8 + 1 := by omega
          rw [this]
          exact hc1
      obtain ⟨ih1, ih2, ih3, ih4⟩ := ih
        (if cnt % 8 = 7 then (c + p) % q else c + p) (cnt + 1)
        (tr ++ [c + p, if cnt % 8 = 7 then (c + p) % q else c + p])
        hps hinv'
      refine ⟨?_, ?_, ?_, ?_⟩
      · rw [hfold, ih1]
        simp
        omega
      · rw [hfold]
        exact ih2
      · rw [hfold, ih3]
        have hmod : (if cnt % 8 = 7 then (c + p) % q else c + p) % q =
            (c + p) % q := by
          by_cases h8 : cnt % 8 = 7
          · rw [if_pos h8, Nat.mod_mod]
          · rw [if_neg h8]
        rw [Nat.add_mod, hmod, ← Nat.add_mod]
        simp [Nat.add_assoc]
      · intro x hx
        rw [hfold] at hx
        rcases ih4 x hx with hmem | hlt
        · rw [List.mem_append] at hmem
          rcases hmem with hmem | hmem
          · exact Or.inl hmem
          · right
            rcases List.mem_cons.mp hmem with rfl | hmem'
            · exact hc1w
            · rcases List.mem_cons.mp hmem' with rfl | hmem''
              · by_cases h8 : cnt % 8 = 7
                · rw [if_pos h8]
                  have : (c + p) % q ≤ c + p := Nat.mod_le _ _
                  omega
                · rw [if_neg h8]
                  exact hc1w
              · simp at hmem''
        · exact Or.inr hlt

/-- C4: in `switchKeys`, the in-loop `Reduce` fires exactly after every 8th
accumulation (the mask test `reduce&7 == 7` at pre-increment counter `n`
holds iff `8 ∣ n+1`), the trailing `Reduce` fires iff the total number of
accumulations is not a multiple of 8 (including the `uint64` wrap of
`reduce-1` at zero accumulations), every intermediate coefficient stays
below `2^64` whenever the modulus admits 8 lazy additions per word
(`9*q ≤ 2^64`), and the returned coefficient is the fully reduced residue of
the whole accumulation. -/
theorem C4_switchKeys_lazy_reduction (q init : ℕ) (prods : List ℕ)
    (st : ℕ × ℕ × List ℕ) (p : ℕ)
    (hq : 0 < q) (hinit : init < q) (hp : ∀ x ∈ prods, x < q)
    (hbound : 9 * q ≤ 2 ^ 64) :
    ((skStep q st p).1 = if 8 ∣ st.2.1 + 1 then (st.1 + p) % q else st.1 + p) ∧
    (((prods.length + (2 ^ 64 - 1)) % 2 ^ 64 &&& 7 ≠ 7) ↔ ¬ (8 ∣ prods.length)) ∧
    (∀ x ∈ (switchKeys64 q init prods).2, x < 2 ^ 64) ∧
    (switchKeys64 q init prods).1 < q ∧
    (switchKeys64 q init prods).1 = (init + prods.sum) % q := by
  have hm : ∀ n : ℕ, n &&& 7 = n % 8 :=
    fun n => Nat.and_pow_two_sub_one_eq_mod n 3
  obtain ⟨k1, k2, k3, k4⟩ := skFold_inv q hq hbound prods init 0 [] hp
    (by simpa using hinit)
  have hfin : (switchKeys64 q init prods).1 =
      if (prods.length + (2 ^ 64 - 1)) % 2 ^ 64 &&& 7 ≠ 7
        then (prods.foldl (skStep q) (init, 0, [])).1 % q
        else (prods.foldl (skStep q) (init, 0, [])).1 := by
    simp only [switchKeys64, k1, Nat.zero_add]
  have htr : (switchKeys64 q init prods).2 =
      (prods.foldl (skStep q) (init, 0, [])).2.2 ++
        [(switchKeys64 q init prods).1] := by
    simp only [switchKeys64, k1, Nat.zero_add]
  have hlt64 : (prods.foldl (skStep q) (init, 0, [])).1 < 2 ^ 64 := by
    have h8 : (prods.foldl (skStep q) (init, 0, [])).2.1 % 8 + 1 ≤ 8 := by omega
    nlinarith
  have hfinlt : (switchKeys64 q init prods).1 < q := by
    rw [hfin]
    by_cases hcond : (prods.length + (2 ^ 64 - 1)) % 2 ^ 64 &&& 7 ≠ 7
    · rw [if_pos hcond]
      exact Nat.mod_lt _ hq
    · rw [if_neg hcond]
      rw [hm] at hcond
      have hTmod : prods.length % 8 = 0 := by omega
      have : (prods.foldl (skStep q) (init, 0, [])).2.1 % 8 = 0 := by
        rw [k1]
        omega
      rw [this] at k2
      simpa using k2
  refine ⟨?_, ?_, ?_, hfinlt, ?_⟩
  · have hms : st.2.1 &&& 7 = st.2.1 % 8 := hm st.2.1
    by_cases h8 : st.2.1 % 8 = 7
    · have hdvd : 8 ∣ st.2.1 + 1 := by omega
      simp [skStep, hms, h8, hdvd]
    · have hdvd : ¬ 8 ∣ st.2.1 + 1 := by omega
      simp [skStep, hms, h8, hdvd]
  · rw [hm]
    omega
  · intro x hx
    rw [htr, List.mem_append] at hx
    rcases hx with hx | hx
    · rcases k4 x hx with hmem | hlt
      · simp at hmem
      · exact hlt
    · rcases List.mem_cons.mp hx with rfl | hx'
      · omega
      · simp at hx'
  · rw [hfin]
    by_cases hcond : (prods.length + (2 ^ 64 - 1)) % 2 ^ 64 &&& 7 ≠ 7
    · rw [if_pos hcond, k3]
    · rw [if_neg hcond]
      have : (prods.foldl (skStep q) (init, 0, [])).1 =
          (prods.foldl (skStep q) (init, 0, [])).1 % q := by
        rw [Nat.mod_eq_of_lt]
        rw [hfin, if_neg hcond] at hfinlt
        exact hfinlt
      rw [this, k3]

/-- C4 witness: the schedule evaluated at `q = 10`, nine products (so the
in-loop `Reduce` fires once, after the 8th accumulation, and the trailing
`Reduce` fires because 9 is not a multiple of 8). -/
theorem C4_switchKeys_lazy_reduction_witness :
    ((skStep 10 (3, 7, []) 4).1 =
      if 8 ∣ (3, 7, ([] : List ℕ)).2.1 + 1 then ((3, 7, ([] : List ℕ)).1 + 4) % 10
      else (3, 7, ([] : List ℕ)).1 + 4) ∧
    ((([1, 2, 3, 4, 5, 6, 7, 8, 9] : List ℕ).length + (2 ^ 64 - 1)) % 2 ^ 64 &&&
        7 ≠ 7 ↔ ¬ (8 ∣ ([1, 2, 3, 4, 5, 6, 7, 8, 9] : List ℕ).length)) ∧
    (∀ x ∈ (switchKeys64 10 3 [1, 2, 3, 4, 5, 6, 7, 8, 9]).2, x < 2 ^ 64) ∧
    (switchKeys64 10 3 [1, 2, 3, 4, 5, 6, 7, 8, 9]).1 < 10 ∧
    (switchKeys64 10 3 [1, 2, 3, 4, 5, 6, 7, 8, 9]).1 =
      (3 + ([1, 2, 3, 4, 5, 6, 7, 8, 9] : List ℕ).sum) % 10 :=
  C4_switchKeys_lazy_reduction 10 3 [1, 2, 3, 4, 5, 6, 7, 8, 9] (3, 7, []) 4
    (by decide) (by decide) (by decide) (by norm_num)

/-!
## tensorAndRescale (claims C1, C2, C8)

The ring operations over QP in NTT form are slot-wise, so one slot over a
commutative ring `R` stands for the (modulus, coefficient) table.  Modelled
from the spec for the external ring package: `MForm` multiplies by the
Montgomery constant `r`; `MulCoeffsMontgomery` multiplies and strips one
factor `r` (multiplication by `rinv` with `r * rinv = 1`).  An element is
its list of polynomials, `tmpCout` is the pool element written by the
tensoring loops.
-/

/-- `MForm`: enter the Montgomery domain. -/
def mform {R : Type} [CommRing R] (r x : R) : R := x * r

/-- `MulCoeffsMontgomery`: Montgomery product of one slot. -/
def mulMont {R : Type} [CommRing R] (rinv a b : R) : R := a * b * rinv

/-- Accumulating write `t[k] += x` (`MulCoeffsMontgomeryAndAdd`). -/
def addAt {R : Type} [CommRing R] (t : List R) (k : ℕ) (x : R) : List R :=
  t.set k (t.getD k 0 + x)

/-- Overwriting write `t[k] = x` (`MulCoeffsMontgomery` with destination
`t[k]`). -/
def setAt {R : Type} (t : List R) (k : ℕ) (x : R) : List R := t.set k x

/-- `Add(t[k], t[k], t[k])`: in-place doubling of `t[k]`. -/
def doubleAt {R : Type} [CommRing R] (t : List R) (k : ℕ) : List R :=
  t.set k (t.getD k 0 + t.getD k 0)

/-- Modelled from the spec: the pool ciphertexts are `NewCiphertextBig(5)`
(not under `src/`), elements of degree 5, i.e. holding `5 + 1` polynomials —
the reading under which the spec's "operands of combined degree ≥ 5 will
overrun" boundary is exact. -/
def ctxpoolDegree : ℕ := 5

/-- Number of polynomials in one pool element. -/
def ctxpoolLen : ℕ := ctxpoolDegree + 1

/-- Degree-1 × degree-1 fast path, squaring branch (`ct0 == ct1`):
`d1` is doubled by the extra `Add(d1, d1, d1)`. -/
def tensorFastSq {R : Type} [CommRing R] (r rinv : R) (A : List R) : List R :=
  let c_00 := mform r (A.getD 0 0)
  let c_01 := mform r (A.getD 1 0)
  let d0 := mulMont rinv c_00 (A.getD 0 0)
  let d1 := mulMont rinv c_00 (A.getD 1 0)
  let d1' := d1 + d1
  let d2 := mulMont rinv c_01 (A.getD 1 0)
  [d0, d1', d2]

/-- Degree-1 × degree-1 fast path, distinct operands: the middle term
accumulates through `MulCoeffsMontgomeryAndAddNoMod`. -/
def tensorFastMul {R : Type} [CommRing R] (r rinv : R) (A B : List R) : List R :=
  let c_00 := mform r (A.getD 0 0)
  let c_01 := mform r (A.getD 1 0)
  let d0 := mulMont rinv c_00 (B.getD 0 0)
  let d1 := mulMont rinv c_00 (B.getD 1 0)
  let d1' := d1 + mulMont rinv c_01 (B.getD 0 0)
  let d2 := mulMont rinv c_01 (B.getD 1 0)
  [d0, d1', d2]

/-- General branch, squaring: `c_00 = MForm(c0)` into a second pool element,
cross products `i < j` written (overwriting) at `i+j` and doubled in place,
then the diagonal products folded into the even positions `i << 1`. -/
def tensorGenSq {R : Type} [CommRing R] (r rinv : R) (A : List R) : List R :=
  let t0 : List R := List.replicate (A.length + A.length) 0
  let c_00 := A.map (mform r)
  let t1 := (List.range A.length).foldl (fun t i =>
    (List.range' (i + 1) (A.length - 1 - i)).foldl (fun t j =>
      doubleAt (setAt t (i + j) (mulMont rinv (c_00.getD i 0) (A.getD j 0)))
        (i + j)) t) t0
  (List.range A.length).foldl (fun t i =>
    addAt t (i + i) (mulMont rinv (c_00.getD i 0) (A.getD i 0))) t1

/-- General branch, distinct operands: `MForm` on `c0[i]` in place, then the
accumulating Montgomery products at `i + j`. -/
def tensorGenMul {R : Type} [CommRing R] (r rinv : R) (A B : List R) : List R :=
  let t0 : List R := List.replicate (A.length + B.length) 0
  (List.range A.length).foldl (fun t i =>
    let ai := mform r (A.getD i 0)
    (List.range B.length).foldl (fun t j =>
      addAt t (i + j) (mulMont rinv ai (B.getD j 0))) t) t0

/-- `tmpCout` after the tensoring loops: the fast path when both operands
have degree 1, the general branch otherwise; `sq` is the pointer identity
`ct0 == ct1` (squaring reads only `c0`). -/
def tensorTmp {R : Type} [CommRing R] (r rinv : R) (sq : Bool)
    (A B : List R) : List R :=
  if A.length = 2 ∧ B.length = 2 then
    if sq then tensorFastSq r rinv A else tensorFastMul r rinv A B
  else
    if sq then tensorGenSq r rinv A else tensorGenMul r rinv A B

/-- The pool indices the tensoring touches: the fast path writes
`tmpCout[0..2]`; the general branch zeroes
`len(ct0.Value()) + len(ct1.Value())` entries, which dominates its other
writes. -/
def tensorTouched (la lb : ℕ) : List ℕ :=
  if la = 2 ∧ lb = 2 then [0, 1, 2] else List.range (la + lb)

/-- `tensorAndRescale` up to (excluding) the inverse-NTT/scale step: the
`a+b+1` outputs read back from `tmpCout` when every touched pool index is in
range, `none` (the Go code panics on the pool overrun) otherwise. -/
def tensorAndRescale {R : Type} [CommRing R] (r rinv : R) (sq : Bool)
    (A B : List R) : Option (List R) :=
  if ∀ k ∈ tensorTouched A.length B.length, k < ctxpoolLen then
    some ((tensorTmp r rinv sq A B).take (A.length + B.length - 1))
  else none

/-- The convolution coefficient `Σ_{i+j=k} A_i · B_j`. -/
def convAt {R : Type} [CommRing R] (A B : List R) (k : ℕ) : R :=
  ((List.range A.length).map (fun i =>
    ((List.range B.length).map (fun j =>
      if i + j = k then A.getD i 0 * B.getD j 0 else 0)).sum)).sum

/-- The full convolution `[Out_0, …, Out_{a+b}]`. -/
def convList {R : Type} [CommRing R] (A B : List R) : List R :=
  (List.range (A.length + B.length - 1)).map (convAt A B)

/-- Montgomery round trip: `MulCoeffsMontgomery(MForm(x), y) = x · y`. -/
theorem montCancel {R : Type} [CommRing R] {r rinv : R} (h : r * rinv = 1)
    (x y : R) : mulMont rinv (mform r x) y = x * y := by
  unfold mulMont mform
  linear_combination x * y * h

/-- A fold whose step preserves length preserves length. -/
theorem foldl_length_invariant {R α : Type} (step : List R → α → List R)
    (hstep : ∀ t a, (step t a).length = t.length) (L : List α) :
    ∀ t : List R, (L.foldl step t).length = t.length := by
  induction L with
  | nil => intro t; rfl
  | cons a L ih =>
      intro t
      rw [List.foldl_cons, ih (step t a), hstep]

/-- Length is preserved by the accumulating write. -/
theorem length_addAt {R : Type} [CommRing R] (t : List R) (k : ℕ) (x : R) :
    (addAt t k x).length = t.length := by
  simp [addAt]

/-- Reading after an accumulating write. -/
theorem getD_addAt {R : Type} [CommRing R] {t : List R} {i : ℕ}
    (h : i < t.length) (x : R) (k : ℕ) :
    (addAt t i x).getD k 0 = t.getD k 0 + if i = k then x else 0 := by
  by_cases hik : i = k
  · subst hik
    rw [if_pos rfl, addAt, List.getD_eq_getElem?_getD,
      List.getElem?_set_self h, List.getD_eq_getElem?_getD]
    rfl
  · rw [if_neg hik, add_zero, addAt, List.getD_eq_getElem?_getD,
      List.getElem?_set_ne hik, List.getD_eq_getElem?_getD]

/-- Slot `k` after a fold of accumulating writes: the original value plus
the contributions targeted at `k`. -/
theorem getD_foldl_addAt {R : Type} [CommRing R] (f : ℕ → ℕ) (g : ℕ → R) :
    ∀ (L : List ℕ) (t : List R) (k : ℕ), (∀ j ∈ L, f j < t.length) →
      ((L.foldl (fun t j => addAt t (f j) (g j)) t).getD k 0)
        = t.getD k 0 + (L.map (fun j => if f j = k then g j else 0)).sum := by
  intro L
  induction L with
  | nil => intro t k _; simp
  | cons j L ih =>
      intro t k hf
      rw [List.foldl_cons, ih (addAt t (f j) (g j)) k
        (fun j' hj' => by rw [length_addAt]; exact hf j' (by simp [hj'])),
        getD_addAt (hf j (by simp)) (g j) k, List.map_cons, List.sum_cons,
        add_assoc]

/-- Slot `k` of the general-branch tensor for distinct operands: the sum of
all Montgomery products `c0[i] ⊛ c1[j]` with `i + j = k`. -/
theorem getD_tensorGenMul {R : Type} [CommRing R] (r rinv : R)
    (A B : List R) (k : ℕ) :
    (tensorGenMul r rinv A B).getD k 0 =
      ((List.range A.length).map (fun i =>
        ((List.range B.length).map (fun j =>
          if i + j = k then mulMont rinv (mform r (A.getD i 0)) (B.getD j 0)
          else 0)).sum)).sum := by
  have key : ∀ (L : List ℕ) (t : List R),
      (∀ i ∈ L, ∀ j ∈ List.range B.length, i + j < t.length) →
      ((L.foldl (fun t i =>
          (List.range B.length).foldl (fun t j =>
            addAt t (i + j) (mulMont rinv (mform r (A.getD i 0)) (B.getD j 0)))
            t) t).getD k 0)
        = t.getD k 0 + (L.map (fun i =>
            ((List.range B.length).map (fun j =>
              if i + j = k then
                mulMont rinv (mform r (A.getD i 0)) (B.getD j 0)
              else 0)).sum)).sum := by
    intro L
    induction L with
    | nil => intro t _; simp
    | cons i L ih =>
        intro t hf
        rw [List.foldl_cons]
        have hlen : ((List.range B.length).foldl (fun t j =>
            addAt t (i + j)
              (mulMont rinv (mform r (A.getD i 0)) (B.getD j 0))) t).length =
            t.length :=
          foldl_length_invariant _ (fun t a => length_addAt t _ _) _ t
        rw [ih _ (fun i' hi' j' hj' => by
          rw [hlen]
          exact hf i' (by simp [hi']) j' hj')]
        rw [getD_foldl_addAt (fun j => i + j)
          (fun j => mulMont rinv (mform r (A.getD i 0)) (B.getD j 0))
          (List.range B.length) t k (fun j hj => hf i (by simp) j hj)]
        rw [List.map_cons, List.sum_cons, add_assoc]
  have hrep : ∀ k' : ℕ, (List.replicate (A.length + B.length) (0 : R)).getD k' 0 = 0 := by
    intro k'
    by_cases hk : k' < A.length + B.length
    · rw [List.getD_eq_getElem?_getD, List.getElem?_eq_getElem
        (by simpa using hk)]
      simp
    · exact getD_of_len_le _ _ _ (by simpa using Nat.le_of_not_lt hk)
  have := key (List.range A.length) (List.replicate (A.length + B.length) 0)
    (fun i hi j hj => by
      rw [List.mem_range] at hi hj
      rw [List.length_replicate]
      omega)
  rw [show tensorGenMul r rinv A B =
      (List.range A.length).foldl (fun t i =>
        (List.range B.length).foldl (fun t j =>
          addAt t (i + j) (mulMont rinv (mform r (A.getD i 0)) (B.getD j 0)))
          t) (List.replicate (A.length + B.length) 0) from rfl, this, hrep,
    zero_add]

/-- The general-branch tensor for distinct operands has
`len(ct0) + len(ct1)` entries. -/
theorem length_tensorGenMul {R : Type} [CommRing R] (r rinv : R)
    (A B : List R) :
    (tensorGenMul r rinv A B).length = A.length + B.length := by
  have h1 : ∀ (t : List R) (i : ℕ), ((List.range B.length).foldl (fun t j =>
      addAt t (i + j) (mulMont rinv (mform r (A.getD i 0)) (B.getD j 0)))
        t).length = t.length :=
    fun t i => foldl_length_invariant _ (fun t a => length_addAt t _ _) _ t
  have h2 : ((List.range A.length).foldl (fun t i =>
      (List.range B.length).foldl (fun t j =>
        addAt t (i + j) (mulMont rinv (mform r (A.getD i 0)) (B.getD j 0)))
        t) (List.replicate (A.length + B.length) 0)).length =
      (List.replicate (A.length + B.length) (0 : R)).length :=
    foldl_length_invariant _ (fun t i => h1 t i) _ _
  rw [show tensorGenMul r rinv A B =
      (List.range A.length).foldl (fun t i =>
        (List.range B.length).foldl (fun t j =>
          addAt t (i + j) (mulMont rinv (mform r (A.getD i 0)) (B.getD j 0)))
          t) (List.replicate (A.length + B.length) 0) from rfl, h2,
    List.length_replicate]

/-- `getD` at an in-range index is the stored element. -/
theorem getD_eq_getElem_of_lt {R : Type} [Zero R] (l : List R) (n : ℕ)
    (h : n < l.length) : l.getD n 0 = l[n] := by
  rw [List.getD_eq_getElem?_getD, List.getElem?_eq_getElem h]
  rfl

/-- The exposed window of the general-branch tensor for distinct operands is
the convolution, given the Montgomery round trip. -/
theorem take_tensorGenMul_conv {R : Type} [CommRing R] (r rinv : R)
    (h : r * rinv = 1) (A B : List R) :
    (tensorGenMul r rinv A B).take (A.length + B.length - 1) = convList A B := by
  apply List.ext_getElem
  · rw [List.length_take, length_tensorGenMul]
    simp only [convList, List.length_map, List.length_range]
    omega
  · intro n h1 h2
    rw [List.getElem_take]
    have hn : n < (tensorGenMul r rinv A B).length := by
      rw [length_tensorGenMul]
      rw [List.length_take, length_tensorGenMul] at h1
      omega
    rw [← getD_eq_getElem_of_lt _ n hn, getD_tensorGenMul]
    simp only [convList, List.getElem_map, List.getElem_range, convAt,
      montCancel h]

/-- Degree-0 squaring through the general branch: the single diagonal
product. -/
theorem tensorGenSq_take_one {R : Type} [CommRing R] (r rinv : R) (h : r * rinv = 1)
    (a0 : R) : (tensorGenSq r rinv [a0]).take 1 = convList [a0] [a0] := by
  simp [tensorGenSq, convList, convAt, List.range_succ, mform, mulMont,
    addAt, setAt, doubleAt, List.range']
  linear_combination a0 * a0 * h

/-- Degree-2 squaring through the general branch: every cross pair lands on
its own output index, is doubled, and the diagonals are folded in. -/
theorem tensorGenSq_take_three {R : Type} [CommRing R] (r rinv : R)
    (h : r * rinv = 1) (a0 a1 a2 : R) :
    (tensorGenSq r rinv [a0, a1, a2]).take 5 =
      convList [a0, a1, a2] [a0, a1, a2] := by
  simp [tensorGenSq, convList, convAt, List.range_succ, mform, mulMont,
    addAt, setAt, doubleAt, List.range']
  refine ⟨?_, ?_, ?_, ?_, ?_⟩
  · linear_combination a0 * a0 * h
  · linear_combination (2 * a0 * a1) * h
  · linear_combination (2 * a0 * a2 + a1 * a1) * h
  · linear_combination (2 * a1 * a2) * h
  · linear_combination a2 * a2 * h

/-- The degree-1 squaring fast path computes the convolution. -/
theorem tensorFastSq_take {R : Type} [CommRing R] (r rinv : R)
    (h : r * rinv = 1) (a0 a1 : R) :
    (tensorFastSq r rinv [a0, a1]).take 3 = convList [a0, a1] [a0, a1] := by
  simp [tensorFastSq, convList, convAt, List.range_succ, mform, mulMont]
  refine ⟨?_, ?_, ?_⟩
  · linear_combination a0 * a0 * h
  · linear_combination (2 * a0 * a1) * h
  · linear_combination a1 * a1 * h

/-- The degree-1 distinct-operand fast path computes the convolution. -/
theorem tensorFastMul_take {R : Type} [CommRing R] (r rinv : R)
    (h : r * rinv = 1) (a0 a1 b0 b1 : R) :
    (tensorFastMul r rinv [a0, a1] [b0, b1]).take 3 =
      convList [a0, a1] [b0, b1] := by
  simp [tensorFastMul, convList, convAt, List.range_succ, mform, mulMont]
  refine ⟨?_, ?_, ?_⟩
  · linear_combination a0 * b0 * h
  · linear_combination (a0 * b1 + a1 * b0) * h
  · linear_combination a1 * b1 * h

/-- C1: whenever `tensorAndRescale` produces an element (no pool overrun),
the `tmpCout` entries read back into the receiver satisfy
`Out_k = Σ_{i+j=k} A_i · B_j` over QP in NTT form for every `k ≤ a+b` — in
particular through the squaring paths (`sq` is the pointer identity
`ct0 == ct1`), where each cross term is doubled before the diagonal term is
folded in. -/
theorem C1_tensor_convolution {R : Type} [CommRing R] (r rinv : R)
    (h : r * rinv = 1) (sq : Bool) (A B : List R)
    (hsq : sq = true → B = A)
    (hsome : (tensorAndRescale r rinv sq A B).isSome = true) :
    tensorAndRescale r rinv sq A B = some (convList A B) := by
  by_cases hg : ∀ k ∈ tensorTouched A.length B.length, k < ctxpoolLen
  case neg => simp [tensorAndRescale, hg] at hsome
  simp only [tensorAndRescale, if_pos hg]
  by_cases hfast : A.length = 2 ∧ B.length = 2
  · obtain ⟨a0, a1, rfl⟩ := List.length_eq_two.mp hfast.1
    obtain ⟨b0, b1, rfl⟩ := List.length_eq_two.mp hfast.2
    cases sq with
    | true =>
        have hBA := hsq rfl
        rw [hBA]
        have := tensorFastSq_take r rinv h a0 a1
        simpa [tensorTmp] using this
    | false =>
        have := tensorFastMul_take r rinv h a0 a1 b0 b1
        simpa [tensorTmp] using this
  · cases sq with
    | false =>
        have := take_tensorGenMul_conv r rinv h A B
        simpa [tensorTmp, hfast] using this
    | true =>
        have hBA := hsq rfl
        simp only [hBA] at hg hfast ⊢
        have hla2 : A.length ≠ 2 := fun hc => hfast ⟨hc, hc⟩
        by_cases h0 : A.length = 0
        · obtain rfl : A = [] := List.length_eq_zero.mp h0
          simp [tensorTmp, tensorGenSq, convList]
        · have hbound : A.length + A.length ≤ ctxpoolLen := by
            have hmem := hg (A.length + A.length - 1) (by
              simp only [tensorTouched, if_neg hfast, List.mem_range]
              omega)
            omega
          have h13 : A.length = 1 ∨ A.length = 3 := by
            simp only [ctxpoolLen, ctxpoolDegree] at hbound
            omega
          rcases h13 with h1 | h3
          · obtain ⟨a0, rfl⟩ := List.length_eq_one.mp h1
            have := tensorGenSq_take_one r rinv h a0
            simpa [tensorTmp] using this
          · obtain ⟨a0, a1, a2, rfl⟩ := List.length_eq_three.mp h3
            have := tensorGenSq_take_three r rinv h a0 a1 a2
            simpa [tensorTmp] using this

/-- C1 witness: the convolution identity evaluated through the general
squaring branch on a degree-2 element over `ZMod 7` with Montgomery constant
`r = 2`, `rinv = 4`. -/
theorem C1_tensor_convolution_witness :
    (2 : ZMod 7) * 4 = 1 ∧ (true = true → ([1, 2, 3] : List (ZMod 7)) = [1, 2, 3]) ∧
      (tensorAndRescale (2 : ZMod 7) 4 true [1, 2, 3] [1, 2, 3]).isSome = true ∧
      tensorAndRescale (2 : ZMod 7) 4 true [1, 2, 3] [1, 2, 3] =
        some (convList [1, 2, 3] [1, 2, 3]) :=
  ⟨by decide, fun _ => rfl, by decide,
    C1_tensor_convolution (2 : ZMod 7) 4 (by decide) true [1, 2, 3] [1, 2, 3]
      (fun _ => rfl) (by decide)⟩

/-- C2: multiplying an element with itself through the pointer-identity
squaring path produces exactly the result of the distinct-operand path on
two copies of the same element — including the out-of-pool `none` cases,
which coincide. -/
theorem C2_squaring_equiv {R : Type} [CommRing R] (r rinv : R) (A : List R) :
    tensorAndRescale r rinv true A A = tensorAndRescale r rinv false A A := by
  by_cases hg : ∀ k ∈ tensorTouched A.length A.length, k < ctxpoolLen
  case neg => simp [tensorAndRescale, hg]
  simp only [tensorAndRescale, if_pos hg]
  by_cases hfast : A.length = 2 ∧ A.length = 2
  · obtain ⟨a0, a1, rfl⟩ := List.length_eq_two.mp hfast.1
    simp [tensorTmp, tensorFastSq, tensorFastMul, mform, mulMont]
    ring
  · have hla2 : A.length ≠ 2 := fun hc => hfast ⟨hc, hc⟩
    by_cases h0 : A.length = 0
    · obtain rfl : A = [] := List.length_eq_zero.mp h0
      simp [tensorTmp, tensorGenSq, tensorGenMul]
    · have hbound : A.length + A.length ≤ ctxpoolLen := by
        have hmem := hg (A.length + A.length - 1) (by
          simp only [tensorTouched, if_neg hfast, List.mem_range]
          omega)
        omega
      have h13 : A.length = 1 ∨ A.length = 3 := by
        simp only [ctxpoolLen, ctxpoolDegree] at hbound
        omega
      rcases h13 with h1 | h3
      · obtain ⟨a0, rfl⟩ := List.length_eq_one.mp h1
        simp [tensorTmp, tensorGenSq, tensorGenMul, List.range_succ,
          List.range', mform, mulMont, addAt, setAt, doubleAt]
      · obtain ⟨a0, a1, a2, rfl⟩ := List.length_eq_three.mp h3
        simp [tensorTmp, tensorGenSq, tensorGenMul, List.range_succ,
          List.range', mform, mulMont, addAt, setAt, doubleAt]
        refine ⟨?_, ?_, ?_⟩ <;> ring

/-- C8: for combined operand degree at most 4 every pool index touched by
`tensorAndRescale` is within the pool element's `ctxpoolLen = 6`
polynomials, and some operand pair of combined degree ≥ 5 indexes past the
pool (the zeroing loop of the higher-degree branch). -/
theorem C8_pool_bounds (la lb : ℕ) (hla : 1 ≤ la) (hlb : 1 ≤ lb)
    (hdeg : (la - 1) + (lb - 1) ≤ 4) :
    (∀ k ∈ tensorTouched la lb, k < ctxpoolLen) ∧
    (∃ la' lb' : ℕ, 1 ≤ la' ∧ 1 ≤ lb' ∧ 5 ≤ (la' - 1) + (lb' - 1) ∧
      ∃ k ∈ tensorTouched la' lb', ctxpoolLen ≤ k) := by
  constructor
  · intro k hk
    by_cases hf : la = 2 ∧ lb = 2
    · simp only [tensorTouched, if_pos hf, List.mem_cons, List.not_mem_nil,
        or_false] at hk
      rcases hk with rfl | rfl | rfl <;> decide
    · simp only [tensorTouched, if_neg hf, List.mem_range] at hk
      simp only [ctxpoolLen, ctxpoolDegree]
      omega
  · exact ⟨4, 3, by omega, by omega, by omega, 6, by decide, by decide⟩

/-- C8 witness: operands of degrees 1 and 2 (combined 3) stay in the pool. -/
theorem C8_pool_bounds_witness :
    (∀ k ∈ tensorTouched 2 3, k < ctxpoolLen) ∧
    (∃ la' lb' : ℕ, 1 ≤ la' ∧ 1 ≤ lb' ∧ 5 ≤ (la' - 1) + (lb' - 1) ∧
      ∃ k ∈ tensorTouched la' lb', ctxpoolLen ≤ k) :=
  C8_pool_bounds 2 3 (by decide) (by decide) (by decide)

/-!
## RotateColumns, RotateRows and InnerSum (claims C6 and C9)

The rotation semantics (Galois permutation plus key switch) is abstracted by
functions `f0`, `fSpec`, `fL`, `fR`, `fRow`; the transcriptions keep the
guard structure, the `k &= (n>>1)-1` reduction, the key lookups and the
order of mutations.  `Copy` of one element into another is modelled from the
spec as the value copy.  Key material is represented by which keys exist.
-/

/-- Which rotation keys have been generated. -/
structure RotationKeys where
  colL : ℕ → Bool
  colR : ℕ → Bool
  row : Bool

/-- Structural bit loop over at most 64 bits. -/
def hammingWeight64Go : ℕ → ℕ → ℕ
  | 0, _ => 0
  | fuel + 1, n => if n = 0 then 0 else n % 2 + hammingWeight64Go fuel (n / 2)

/-- Modelled from the spec: `hammingWeight64` (in the utils package, not
under `src/`) is the population count of a 64-bit word. -/
def hammingWeight64 (n : ℕ) : ℕ := hammingWeight64Go 64 n

/-- The iteration values of `for i := 1; i < m; i <<= 1` (the doubling
cursor of a 64-bit word): the powers of two below `m`. -/
def pow2BelowGo : ℕ → ℕ → ℕ → List ℕ
  | 0, _, _ => []
  | fuel + 1, i, m => if i < m then i :: pow2BelowGo fuel (2 * i) m else []

/-- The powers of two below `m`. -/
def pow2Below (m : ℕ) : List ℕ := pow2BelowGo 64 1 m

/-- The completeness loop over the power-of-two left and right column
keys. -/
def hasPow2Rotations (n : ℕ) (keys : RotationKeys) : Bool :=
  (pow2Below (n / 2)).all (fun i => keys.colL i && keys.colR i)

/-- The path `RotateColumns` takes. -/
inductive RotPath where
  | zeroSame
  | zeroCopy
  | errReceiver
  | errDegree
  | permuteDeg0
  | specificKey (k : ℕ)
  | pow2L (k : ℕ)
  | pow2R (k : ℕ)
  | errNoKeys
  deriving DecidableEq, Repr

/-- Transcription of `Evaluator.RotateColumns`: the `k &= (n>>1)-1`
reduction, the zero-rotation early return (copy only when the operands are
distinct objects), the degree guards, then specific key / complete
power-of-two decomposition by Hamming weight / error.  Returns the error,
the receiver contents after the call, and the path taken. -/
def RotateColumns {R : Type} (n : ℕ) (f0 fSpec fL fR : ℕ → List R → List R)
    (keys : RotationKeys) (c0 : List R) (k : ℕ) (c1 : List R)
    (same : Bool) : Option BfvError × List R × RotPath :=
  let k' := k &&& (n / 2 - 1)
  if k' = 0 then
    if ¬ same then (none, c0, .zeroCopy) else (none, c1, .zeroSame)
  else if c1.length - 1 ≠ c0.length - 1 then
    (some .receiverDegreeMismatchRotate, c1, .errReceiver)
  else if 1 < c0.length - 1 then
    (some .degreeOutOfRangeRotate, c1, .errDegree)
  else if c0.length - 1 = 0 then
    (none, f0 k' c0, .permuteDeg0)
  else if keys.colL k' then
    (none, fSpec k' c0, .specificKey k')
  else if hasPow2Rotations n keys then
    if hammingWeight64 k' ≤ hammingWeight64 (n / 2 - k') then
      (none, fL k' c0, .pow2L k')
    else
      (none, fR (n / 2 - k') c0, .pow2R (n / 2 - k'))
  else (some .rotationKeysNotGenerated, c1, .errNoKeys)

/-- Transcription of `Evaluator.RotateRows`: degree guards, then the row-key
presence check, then the abstracted row rotation. -/
def RotateRows {R : Type} (fRow : List R → List R) (keys : RotationKeys)
    (c0 c1 : List R) : Option BfvError × List R :=
  if c1.length - 1 ≠ c0.length - 1 then
    (some .receiverDegreeMismatchRotate, c1)
  else if 1 < c0.length - 1 then
    (some .degreeOutOfRangeRotate, c1)
  else if ¬ keys.row then
    (some .rowRotationKeyNotGenerated, c1)
  else (none, fRow c0)

/-- `evaluator.Add` on two degree-1 elements (slot-wise). -/
def addVec {R : Type} [CommRing R] (a b : List R) : List R :=
  List.zipWith (fun x y => x + y) a b

/-- The rotate-and-add loop of `InnerSum` over the powers of two, rotating
the current receiver value into the scratch ciphertext `cTmp` (a fresh
degree-1 element) and adding back; a rotation error aborts with the
receiver in its current (already mutated) state. -/
def innerSumLoop {R : Type} [CommRing R] (n : ℕ)
    (f0 fSpec fL fR : ℕ → List R → List R) (keys : RotationKeys) :
    List ℕ → List R → Option BfvError × List R
  | [], c1 => (none, c1)
  | i :: rest, c1 =>
      match (RotateColumns n f0 fSpec fL fR keys c1 i
          (List.replicate 2 0) false).1 with
      | some e => (some e, c1)
      | none => innerSumLoop n f0 fSpec fL fR keys rest
          (addVec (RotateColumns n f0 fSpec fL fR keys c1 i
            (List.replicate 2 0) false).2.1 c1)

/-- Transcription of `Evaluator.InnerSum`: degree guards, the copy of the
input over the receiver when they are distinct objects, the power-of-two
rotate-and-add loop, and the final row rotation and add. -/
def InnerSum {R : Type} [CommRing R] (n : ℕ)
    (f0 fSpec fL fR : ℕ → List R → List R) (fRow : List R → List R)
    (keys : RotationKeys) (c0 c1 : List R) (same : Bool) :
    Option BfvError × List R :=
  if c0.length - 1 ≠ 1 then (some .ctDegreeNotOneInnerSum, c1)
  else if c1.length - 1 ≠ 1 then (some .receiverDegreeNotOneInnerSum, c1)
  else
    match innerSumLoop n f0 fSpec fL fR keys (pow2Below (n / 2))
        (if ¬ same then c0 else c1) with
    | (some e, v) => (some e, v)
    | (none, v) =>
        match RotateRows fRow keys v (List.replicate 2 0) with
        | (some e, _) => (some e, v)
        | (none, vr) => (none, addVec v vr)

/-- C6 counterexample: `InnerSum` over `ZMod 5` (`N = 8`) with no rotation
keys at all returns the missing-keys error, yet the receiver — initially
`[3, 4]` — has already been overwritten with the copy `[1, 2]` of the input,
contradicting the claim that a failed call leaves the receiver in its
pre-call state. -/
theorem C6_counterexample :
    ((InnerSum 8 (fun _ v => v) (fun _ v => v) (fun _ v => v) (fun _ v => v)
        (fun v => v) ⟨fun _ => false, fun _ => false, false⟩
        ([1, 2] : List (ZMod 5)) [3, 4] false).1).isSome = true ∧
      (InnerSum 8 (fun _ v => v) (fun _ v => v) (fun _ v => v) (fun _ v => v)
        (fun v => v) ⟨fun _ => false, fun _ => false, false⟩
        ([1, 2] : List (ZMod 5)) [3, 4] false).2 ≠ [3, 4] := by
  constructor
  · rfl
  · decide

/-- An erroring `RotateColumns` call leaves its receiver unchanged. -/
theorem rotateColumns_error_frame {R : Type} (n : ℕ)
    (f0 fSpec fL fR : ℕ → List R → List R) (keys : RotationKeys)
    (c0 : List R) (k : ℕ) (c1 : List R) (same : Bool)
    (herr : ((RotateColumns n f0 fSpec fL fR keys c0 k c1 same).1).isSome = true) :
    (RotateColumns n f0 fSpec fL fR keys c0 k c1 same).2.1 = c1 := by
  simp only [RotateColumns] at herr ⊢
  split_ifs at herr ⊢ <;> simp_all

/-- An erroring `RotateRows` call leaves its receiver unchanged. -/
theorem rotateRows_error_frame {R : Type} (fRow : List R → List R)
    (keys : RotationKeys) (c0 c1 : List R)
    (herr : ((RotateRows fRow keys c0 c1).1).isSome = true) :
    (RotateRows fRow keys c0 c1).2 = c1 := by
  simp only [RotateRows] at herr ⊢
  split_ifs at herr ⊢ <;> simp_all

/-- C6 (amended): `RotateColumns` and `RotateRows` never mutate their
receiver on an error path, and `InnerSum`'s own degree guards error before
any mutation; but when the degrees are valid, the operands are distinct and
the rotation keys are missing, `InnerSum` surfaces the missing-keys error
only after the receiver has been overwritten with the copy of the input. -/
theorem C6_error_mutation {R : Type} [CommRing R] (n t : ℕ)
    (f0 fSpec fL fR : ℕ → List R → List R) (fRow : List R → List R)
    (keys : RotationKeys) (c0 c1 : List R) (k : ℕ) (same : Bool)
    (hn : n = 2 ^ t) (ht : 2 ≤ t) :
    (((RotateColumns n f0 fSpec fL fR keys c0 k c1 same).1).isSome = true →
      (RotateColumns n f0 fSpec fL fR keys c0 k c1 same).2.1 = c1) ∧
    (((RotateRows fRow keys c0 c1).1).isSome = true →
      (RotateRows fRow keys c0 c1).2 = c1) ∧
    (c0.length - 1 ≠ 1 ∨ c1.length - 1 ≠ 1 →
      ((InnerSum n f0 fSpec fL fR fRow keys c0 c1 same).1).isSome = true ∧
      (InnerSum n f0 fSpec fL fR fRow keys c0 c1 same).2 = c1) ∧
    (c0.length = 2 → c1.length = 2 → same = false →
      keys.colL 1 = false → hasPow2Rotations n keys = false →
      InnerSum n f0 fSpec fL fR fRow keys c0 c1 same =
        (some BfvError.rotationKeysNotGenerated, c0)) := by
  have hn2 : n / 2 = 2 ^ (t - 1) := by
    have h21 : (2 : ℕ) ^ t / 2 ^ 1 = 2 ^ (t - 1) :=
      Nat.pow_div (by omega) (by omega)
    rw [pow_one] at h21
    rw [hn, h21]
  have hge : 2 ≤ n / 2 := by
    rw [hn2]
    calc (2 : ℕ) = 2 ^ 1 := (pow_one 2).symm
    _ ≤ 2 ^ (t - 1) := Nat.pow_le_pow_right (by omega) (by omega)
  refine ⟨rotateColumns_error_frame n f0 fSpec fL fR keys c0 k c1 same,
    rotateRows_error_frame fRow keys c0 c1, ?_, ?_⟩
  · intro h
    by_cases hcg : c0.length - 1 ≠ 1
    · constructor <;> simp [InnerSum, hcg]
    · have hc1g : c1.length - 1 ≠ 1 := by tauto
      constructor <;> simp [InnerSum, hcg, hc1g]
  · intro h0 h1 hsame hkey hpow
    subst hsame
    have hk' : 1 &&& (n / 2 - 1) = 1 := by
      rw [hn2]
      have hmask := Nat.and_pow_two_sub_one_eq_mod 1 (t - 1)
      rw [hmask]
      exact Nat.mod_eq_of_lt (by
        calc (1 : ℕ) < 2 := by omega
        _ ≤ 2 ^ (t - 1) := by
            calc (2 : ℕ) = 2 ^ 1 := (pow_one 2).symm
            _ ≤ 2 ^ (t - 1) := Nat.pow_le_pow_right (by omega) (by omega))
    have hrot : RotateColumns n f0 fSpec fL fR keys c0 1 [0, 0] false =
        (some BfvError.rotationKeysNotGenerated, ([0, 0] : List R),
          RotPath.errNoKeys) := by
      simp [RotateColumns, hk', h0, hkey, hpow]
    have hhead : pow2Below (n / 2) =
        1 :: pow2BelowGo 63 (2 * 1) (n / 2) := by
      have hunfold : pow2Below (n / 2) =
          if 1 < n / 2 then 1 :: pow2BelowGo 63 (2 * 1) (n / 2) else [] := rfl
      rw [hunfold, if_pos (by omega)]
    simp only [InnerSum, hhead]
    rw [if_neg (by omega), if_neg (by omega)]
    simp [innerSumLoop, hrot]

/-- C6 witness: the amended statement's key-missing clause evaluated over
`ZMod 5` with `N = 8`, no keys, distinct operands: the call errors with the
receiver holding the copy `[1, 2]` of the input. -/
theorem C6_error_mutation_witness :
    InnerSum 8 (fun _ v => v) (fun _ v => v) (fun _ v => v) (fun _ v => v)
      (fun v => v) ⟨fun _ => false, fun _ => false, false⟩
      ([1, 2] : List (ZMod 5)) [3, 4] false =
      (some BfvError.rotationKeysNotGenerated, [1, 2]) :=
  (C6_error_mutation 8 3 (fun _ v => v) (fun _ v => v) (fun _ v => v)
    (fun _ v => v) (fun v => v) ⟨fun _ => false, fun _ => false, false⟩
    ([1, 2] : List (ZMod 5)) [3, 4] 1 false (by norm_num)
    (by omega)).2.2.2 rfl rfl rfl rfl (by decide)

/-- C9: `RotateColumns` first reduces `k` modulo `N/2` (the mask
`k &= (N>>1)-1`), returns successfully with a copy only for distinct
elements and independently of the key material when the reduced amount is
zero, and for a degree-1 input with no specific key but complete
power-of-two keys dispatches to the left decomposition of `k` iff
`popcount(k) ≤ popcount(N/2 - k)` (ties to the left), otherwise to the
right decomposition of `N/2 - k`. -/
theorem C9_rotate_dispatch {R : Type} (n t : ℕ) (hn : n = 2 ^ t)
    (ht : 1 ≤ t) (f0 fSpec fL fR : ℕ → List R → List R)
    (keys keys' : RotationKeys) (c0 c1 : List R) (k : ℕ) (same : Bool) :
    (k &&& (n / 2 - 1) = k % (n / 2)) ∧
    (k % (n / 2) = 0 →
      RotateColumns n f0 fSpec fL fR keys c0 k c1 same =
        (none, (if same then c1 else c0),
          (if same then RotPath.zeroSame else RotPath.zeroCopy)) ∧
      RotateColumns n f0 fSpec fL fR keys c0 k c1 same =
        RotateColumns n f0 fSpec fL fR keys' c0 k c1 same) ∧
    (k % (n / 2) ≠ 0 → c0.length = 2 → c1.length = 2 →
      keys.colL (k % (n / 2)) = false → hasPow2Rotations n keys = true →
      RotateColumns n f0 fSpec fL fR keys c0 k c1 same =
        (if hammingWeight64 (k % (n / 2)) ≤
            hammingWeight64 (n / 2 - k % (n / 2)) then
          (none, fL (k % (n / 2)) c0, RotPath.pow2L (k % (n / 2)))
        else
          (none, fR (n / 2 - k % (n / 2)) c0,
            RotPath.pow2R (n / 2 - k % (n / 2))))) := by
  have hn2 : n / 2 = 2 ^ (t - 1) := by
    have h21 : (2 : ℕ) ^ t / 2 ^ 1 = 2 ^ (t - 1) :=
      Nat.pow_div (by omega) (by omega)
    rw [pow_one] at h21
    rw [hn, h21]
  have heq : k &&& (n / 2 - 1) = k % (n / 2) := by
    rw [hn2]
    exact Nat.and_pow_two_sub_one_eq_mod k (t - 1)
  refine ⟨heq, ?_, ?_⟩
  · intro hk0
    constructor
    · simp only [RotateColumns, heq, hk0, if_pos]
      cases same <;> simp
    · simp only [RotateColumns, heq, hk0, if_pos]
  · intro hne h0 h1 hkey hpow
    simp [RotateColumns, heq, hne, h0, h1, hkey, hpow]

/-- C9 witness: over `ZMod 5` with `N = 8`, rotation by `k = 3` (reduced
amount 3, not a power of two) with only the power-of-two keys present:
`popcount(3) = 2 > 1 = popcount(4 - 3)`, so the right decomposition of
`N/2 - k = 1` is chosen. -/
theorem C9_rotate_dispatch_witness :
    RotateColumns 8 (fun _ v => v) (fun _ v => v) (fun _ v => v)
      (fun _ v => v)
      ⟨fun i => decide (i = 1 ∨ i = 2), fun i => decide (i = 1 ∨ i = 2), false⟩
      ([1, 2] : List (ZMod 5)) 3 [3, 4] false =
      (none, [1, 2], RotPath.pow2R 1) :=
  (C9_rotate_dispatch 8 3 (by norm_num) (by omega) (fun _ v => v)
    (fun _ v => v) (fun _ v => v) (fun _ v => v)
    ⟨fun i => decide (i = 1 ∨ i = 2), fun i => decide (i = 1 ∨ i = 2), false⟩
    ⟨fun i => decide (i = 1 ∨ i = 2), fun i => decide (i = 1 ∨ i = 2), false⟩
    ([1, 2] : List (ZMod 5)) [3, 4] 3 false).2.2 (by decide) rfl rfl
    (by decide) (by decide)
